import Mathlib

/-!
# Verification of the facienda recurrence engine

Shallow embedding of `internal/recurrence/recurrence.go` (final version, the
one with four pattern families) together with the fragment of Go's `time`
package behavior that the engine uses: civil-date normalization
(`time.Date`), day/month arithmetic (`AddDate`), weekday computation and
instant comparison (`After`).  Dates are modelled as normalized civil
triples (year, month, day) plus an abstract time-of-day component; Go's
overflow-then-normalize construction is modelled by an explicit borrow/carry
normalization, which is extensionally the same function.  Day counting uses
a days-since-1970-01-01 formula equivalent to the standard civil-from-days
computation; weekdays follow Go's numbering (Sunday = 0 .. Saturday = 6).

Unbounded `for` loops of the source become fuelled recursions returning
`Option`; `none` models a loop that fails to reach its exit within the
given fuel, so termination claims become "the result is `some _`".
-/

namespace Facienda

/-- Gregorian leap-year test, as in Go's `isLeap`:
`year%4 == 0 && year%100 != 0 || year%400 == 0`. -/
def isLeap (y : Int) : Bool :=
  (y % 4 == 0 && y % 100 != 0) || y % 400 == 0

/-- Days in a month, as Go's `daysIn` (February depends on leapness). -/
def daysIn (y m : Int) : Int :=
  if m = 2 then (if isLeap y then 29 else 28)
  else if m = 4 ∨ m = 6 ∨ m = 9 ∨ m = 11 then 30
  else 31

/-- Days from the start of the March-based year to the start of month `m`
(March = 0 days, ..., February = 337 days).  This is the usual
`(153 * mp + 2) / 5` table of the civil-from-days algorithm, spelled out. -/
def monthDoy (m : Int) : Int :=
  if m = 3 then 0 else if m = 4 then 31 else if m = 5 then 61
  else if m = 6 then 92 else if m = 7 then 122 else if m = 8 then 153
  else if m = 9 then 184 else if m = 10 then 214 else if m = 11 then 245
  else if m = 12 then 275 else if m = 1 then 306 else 337

/-- Leap-corrected day count: number of days in March-based years `< y`
relative to the era origin: `365*y + ⌊y/4⌋ - ⌊y/100⌋ + ⌊y/400⌋`. -/
def gdays (y : Int) : Int := 365 * y + y / 4 - y / 100 + y / 400

/-- Days since 1970-01-01 of the civil date `(y, m, d)` (for a normalized
date; on arbitrary inputs it is the linear extension of that function).
`dfc 1970 1 1 = 0`. -/
def dfc (y m d : Int) : Int :=
  gdays (if m ≤ 2 then y - 1 else y) + monthDoy m + d - 719469

/-- An instant as used by the engine: a civil date plus an abstract
time-of-day (Go's clock-within-day, kept opaque since the engine never
inspects it, only copies or zeroes it and compares instants). -/
structure GoTime where
  year : Int
  month : Int
  day : Int
  tod : Nat
  deriving DecidableEq, Repr

/-- Weekday of an instant, Go numbering: Sunday = 0 .. Saturday = 6
(1970-01-01 was a Thursday = 4). -/
def wdOf (t : GoTime) : Int := (dfc t.year t.month t.day + 4) % 7

/-- Go `t.After(u)`: strict instant comparison.  On normalized dates,
lexicographic civil order agrees with chronological order. -/
def goAfter (t u : GoTime) : Bool :=
  (u.year < t.year) ||
  (u.year == t.year && (u.month < t.month ||
    (u.month == t.month && (u.day < t.day ||
      (u.day == t.day && u.tod < t.tod)))))

/-- The month after `(y, m)` (for normalized `m`). -/
def nextYM (y m : Int) : Int × Int := if m = 12 then (y + 1, 1) else (y, m + 1)

/-- The month before `(y, m)` (for normalized `m`). -/
def prevYM (y m : Int) : Int × Int := if m = 1 then (y - 1, 12) else (y, m - 1)

/-- Borrow/carry day normalization: bring `d` into `[1, daysIn y m]` by
moving whole months.  This is what Go's `time.Date` does to out-of-range
day numbers (it converts through an absolute day count, which has exactly
this effect).  Fuelled; all call sites of the engine stay within fuel 40. -/
def dayFix : Nat → Int → Int → Int → Int × Int × Int
  | 0, y, m, d => (y, m, d)
  | fuel + 1, y, m, d =>
    if d < 1 then
      let p := prevYM y m
      dayFix fuel p.1 p.2 (d + daysIn p.1 p.2)
    else if daysIn y m < d then
      let nx := nextYM y m
      dayFix fuel nx.1 nx.2 (d - daysIn y m)
    else (y, m, d)

/-- Month-then-day normalization of a civil triple, as in Go `time.Date`:
first fold the month into `[1, 12]` (adjusting the year), then fix the day. -/
def normYMD (y m d : Int) : Int × Int × Int :=
  dayFix 40 (y + (m - 1) / 12) ((m - 1) % 12 + 1) d

/-- Go `time.Date(y, m, d, hh, mm, ss, ns, loc)` restricted to what the
engine uses: normalized civil date plus a time-of-day. -/
def goDate (y m d : Int) (tod : Nat) : GoTime :=
  let r := normYMD y m d
  ⟨r.1, r.2.1, r.2.2, tod⟩

/-- Go `t.AddDate(years, months, days)`: re-date with the offsets added,
keeping the clock (time-of-day). -/
def addDate (t : GoTime) (ys ms ds : Int) : GoTime :=
  goDate (t.year + ys) (t.month + ms) (t.day + ds) t.tod

/-- A normalized instant: month and day in range.  Reference instants fed
to the engine (and everything it builds from them) satisfy this. -/
def validT (t : GoTime) : Prop :=
  1 ≤ t.month ∧ t.month ≤ 12 ∧ 1 ≤ t.day ∧ t.day ≤ daysIn t.year t.month

instance (t : GoTime) : Decidable (validT t) := by
  unfold validT; infer_instance

/-- Go `isWeekday`: Monday through Friday. -/
def isWeekdayB (w : Int) : Bool := 1 ≤ w && w ≤ 5

/-- Go `isWeekend`: Saturday or Sunday. -/
def isWeekendB (w : Int) : Bool := w == 6 || w == 0

/-! ## Strings

The engine stores patterns as strings and parses free text.  Strings are
modelled as `List Char` so that everything is structurally recursive and
kernel-evaluable.  Each Go regular expression is translated into an
equivalent deterministic character-level matcher (the alternation and
option points of these anchored expressions admit no real backtracking:
whenever an optional piece matches, the skipping path is immediately stuck,
as argued in comments at each spot).
-/

/-- String contents as a character list. -/
abbrev Str := List Char

/-- Go `unicode.IsSpace`: the White_Space code points. -/
def goIsSpace (c : Char) : Bool :=
  c == '\t' || c == '\n' || c == Char.ofNat 11 || c == Char.ofNat 12 ||
  c == '\r' || c == ' ' || c == Char.ofNat 0x85 || c == Char.ofNat 0xA0 ||
  c == Char.ofNat 0x1680 ||
  (0x2000 ≤ c.toNat && c.toNat ≤ 0x200A) ||
  c == Char.ofNat 0x2028 || c == Char.ofNat 0x2029 ||
  c == Char.ofNat 0x202F || c == Char.ofNat 0x205F || c == Char.ofNat 0x3000

/-- The character class of `\s` in Go regular expressions:
`[\t\n\f\r ]`. -/
def reSpace (c : Char) : Bool :=
  c == '\t' || c == '\n' || c == Char.ofNat 12 || c == '\r' || c == ' '

/-- ASCII digit. -/
def isDigitC (c : Char) : Bool := '0' ≤ c && c ≤ '9'

/-- Go `strings.TrimSpace`: drop leading and trailing white space. -/
def trimSpace (l : Str) : Str :=
  ((l.dropWhile goIsSpace).reverse.dropWhile goIsSpace).reverse

/-- Go `strings.ToLower` restricted to ASCII letters (the grammar, all
claim inputs and all renderer outputs are ASCII, where Go's mapping is
exactly this one). -/
def toLowerGo (l : Str) : Str := l.map Char.toLower

/-- Match a literal, returning the remainder. -/
def stripLit : Str → Str → Option Str
  | [], l => some l
  | _ :: _, [] => none
  | c :: cs, x :: xs => if x = c then stripLit cs xs else none

/-- `\s+` (one or more regex space characters, greedily), returning the
remainder.  Greediness is deterministic here because nothing that may
follow `\s+` in the grammar starts with a space character. -/
def stripSpaces1 (l : Str) : Option Str :=
  match l with
  | c :: rest => if reSpace c then some (rest.dropWhile reSpace) else none
  | [] => none

/-- Does `p` occur as a prefix? -/
def startsWithL (p l : Str) : Bool := (stripLit p l).isSome

/-- Go `strings.Contains`: substring occurrence. -/
def containsL (l p : Str) : Bool :=
  match l with
  | [] => p.isEmpty
  | _ :: rest => startsWithL p l || containsL rest p

/-- Decimal value of a digit string (as used for the 1–2 digit captures;
`strconv.Atoi` cannot fail on them and overflow is out of reach). -/
def digitsVal (l : Str) : Int :=
  l.foldl (fun acc c => acc * 10 + (c.toNat - '0'.toNat : Int)) 0

/-- Go `strconv.Atoi` on the strings the engine ever feeds it: an optional
sign followed by one or more digits; `none` on anything else. -/
def atoiGo (l : Str) : Option Int :=
  let core : Str → Option Int := fun ds =>
    if ds = [] || ds.any (fun c => !isDigitC c) then none else some (digitsVal ds)
  match l with
  | '+' :: rest => core rest
  | '-' :: rest => (core rest).map (fun n => -n)
  | _ => core l

/-- Decimal rendering of a non-negative number, as `fmt.Sprintf "%d"`. -/
def natDigits : Nat → Nat → Str
  | 0, _ => []
  | fuel + 1, n =>
    if n < 10 then [Char.ofNat ('0'.toNat + n)]
    else natDigits fuel (n / 10) ++ [Char.ofNat ('0'.toNat + n % 10)]

/-- `fmt.Sprintf "%d"` for the engine's (non-negative) numbers. -/
def intDec (n : Int) : Str := natDigits 20 n.toNat

/-- Go `strings.Split(s, ":")`. -/
def splitColon (l : Str) : List Str :=
  match l with
  | [] => [[]]
  | c :: rest =>
    if c = ':' then [] :: splitColon rest
    else
      match splitColon rest with
      | h :: t => (c :: h) :: t
      | [] => [[c]]

/-- The seven lowercase weekday names of the weekly alternation. -/
def dayNames : List Str :=
  ["monday".data, "tuesday".data, "wednesday".data, "thursday".data,
   "friday".data, "saturday".data, "sunday".data]

/-- `weeklyRegex = ^every\s+(monday|...|sunday)$`: on success, the captured
day name.  After the greedy `\s+`, the remainder must be exactly one of the
seven names (they do not start with a space, so greediness is harmless). -/
def weeklyMatch (l : Str) : Option Str :=
  match stripLit "every".data l with
  | none => none
  | some r1 =>
    match stripSpaces1 r1 with
    | none => none
    | some r2 => if dayNames.contains r2 then some r2 else none

/-- The required ordinal suffix `(st|nd|rd|th)`. -/
def stripOrd (l : Str) : Option Str :=
  match l with
  | a :: b :: rest =>
    if (a = 's' ∧ b = 't') ∨ (a = 'n' ∧ b = 'd') ∨
       (a = 'r' ∧ b = 'd') ∨ (a = 't' ∧ b = 'h') then some rest else none
  | _ => none

/-- `(?:the\s+)?` before the literal `month`.  If `the\s+` matches, the
skipping path is stuck (the remainder then starts with `t`, not `m`), so
consuming it is the only possibility — no backtracking needed. -/
def optThe (l : Str) : Str :=
  match stripLit "the".data l with
  | none => l
  | some r =>
    match stripSpaces1 r with
    | none => l
    | some r2 => r2

/-- `\s+weekday\s+of\s+(?:the\s+)?month$`, the common tail of the
nth-weekday alternation. -/
def nthTail (l : Str) : Bool :=
  match stripSpaces1 l with
  | none => false
  | some r1 =>
    match stripLit "weekday".data r1 with
    | none => false
    | some r2 =>
      match stripSpaces1 r2 with
      | none => false
      | some r3 =>
        match stripLit "of".data r3 with
        | none => false
        | some r4 =>
          match stripSpaces1 r4 with
          | none => false
          | some r5 => optThe r5 = "month".data

/-- `nthWeekdayRegex = ^(?:(\d+)(?:st|nd|rd|th)|first|...|fifth)\s+weekday
\s+of\s+(?:the\s+)?month$`: on success, the digit capture (empty for the
spelled-out ordinals, exactly as Go's `matches[1]`).  `\d+` is a maximal
digit run (taking fewer digits leaves a digit where `st|nd|rd|th` must
start, which is stuck), and the word alternatives begin with non-digits. -/
def nthWeekdayMatch (l : Str) : Option Str :=
  match l with
  | c :: _ =>
    if isDigitC c then
      let ds := l.takeWhile isDigitC
      match stripOrd (l.dropWhile isDigitC) with
      | none => none
      | some r => if nthTail r then some ds else none
    else
      let word : Option Str :=
        match stripLit "first".data l with
        | some r => some r
        | none =>
          match stripLit "second".data l with
          | some r => some r
          | none =>
            match stripLit "third".data l with
            | some r => some r
            | none =>
              match stripLit "fourth".data l with
              | some r => some r
              | none => stripLit "fifth".data l
      match word with
      | none => none
      | some r => if nthTail r then some [] else none
  | [] => none

/-- `lastWeekendRegex = ^last\s+weekend\s+of\s+(?:the\s+)?month$`. -/
def lastWeekendMatch (l : Str) : Bool :=
  match stripLit "last".data l with
  | none => false
  | some r1 =>
    match stripSpaces1 r1 with
    | none => false
    | some r2 =>
      match stripLit "weekend".data r2 with
      | none => false
      | some r3 =>
        match stripSpaces1 r3 with
        | none => false
        | some r4 =>
          match stripLit "of".data r4 with
          | none => false
          | some r5 =>
            match stripSpaces1 r5 with
            | none => false
            | some r6 => optThe r6 = "month".data

/-- `(?:\s+of\s+(?:each|every)\s+month)?$`, the optional tail of the plain
monthly pattern.  An empty remainder takes the skipping path; a non-empty
one must match the tail in full (the skipping path is then stuck at `$`). -/
def monthlyTail (l : Str) : Bool :=
  if l = [] then true
  else
    match stripSpaces1 l with
    | none => false
    | some r1 =>
      match stripLit "of".data r1 with
      | none => false
      | some r2 =>
        match stripSpaces1 r2 with
        | none => false
        | some r3 =>
          let r4 : Option Str :=
            match stripLit "each".data r3 with
            | some r => some r
            | none => stripLit "every".data r3
          match r4 with
          | none => false
          | some r5 =>
            match stripSpaces1 r5 with
            | none => false
            | some r6 => stripLit "month".data r6 = some []

/-- `monthlyRegex = ^(?:on\s+)?(\d{1,2})(?:st|nd|rd|th)?(?:\s+of\s+
(?:each|every)\s+month)?$`: on success, the digit capture.
Determinism: if `on\s+` matches, the skipping path is stuck (a digit is
required where `o` stands); `\d{1,2}` must take the whole digit run (a
left-over digit fits no following piece), and a run of three or more
digits can never match; if an ordinal suffix is present it must be
consumed (a leading `s`, `n`, `r` or `t` fits neither `\s` nor `$`). -/
def monthlyAfterOn (l : Str) : Str :=
  match stripLit "on".data l with
  | none => l
  | some r =>
    match stripSpaces1 r with
    | none => l
    | some r2 => r2

/-- The optional ordinal suffix of the monthly pattern (consumed when
present; skipping a present suffix leaves a letter where `\s` or `$` must
stand, so greediness is deterministic). -/
def monthlyOrd (r1 : Str) : Str :=
  match stripOrd r1 with
  | some r => r
  | none => r1

def monthlyMatch (l : Str) : Option Str :=
  let ds := (monthlyAfterOn l).takeWhile isDigitC
  if ds.length = 0 ∨ 3 ≤ ds.length then none
  else if monthlyTail (monthlyOrd ((monthlyAfterOn l).dropWhile isDigitC)) then
    some ds
  else none

/-- The two error values of the engine. -/
inductive RecError
  | invalidPattern
  | invalidDay
  deriving DecidableEq, Repr

instance {α β : Type} [DecidableEq α] [DecidableEq β] :
    DecidableEq (Except α β) :=
  fun a b =>
    match a, b with
    | .ok x, .ok y =>
      if h : x = y then .isTrue (by rw [h])
      else .isFalse (by intro hh; cases hh; exact h rfl)
    | .error x, .error y =>
      if h : x = y then .isTrue (by rw [h])
      else .isFalse (by intro hh; cases hh; exact h rfl)
    | .ok _, .error _ => .isFalse (by intro hh; cases hh)
    | .error _, .ok _ => .isFalse (by intro hh; cases hh)

/-- Canonical pattern strings (`Pattern` is a string in the source). -/
abbrev Pattern := Str

/-- The ordinal of the nth-weekday branch: the digit capture when present,
otherwise Go's `strings.Contains` switch over the whole processed input
(first .. fifth, in source order, 0 when none hits — unreachable after a
regex match). -/
def nthValue (inp ds : Str) : Int :=
  if ds ≠ [] then digitsVal ds
  else if containsL inp "first".data then 1
  else if containsL inp "second".data then 2
  else if containsL inp "third".data then 3
  else if containsL inp "fourth".data then 4
  else if containsL inp "fifth".data then 5
  else 0

/-- Go `ParsePattern` (final version, four families).  The empty check
precedes trimming; matching is on the lowercased, trimmed input; the
alternatives are tried in source order. -/
def parsePattern (input : Str) : Except RecError Pattern :=
  if input = [] then .ok [] else
  let inp := toLowerGo (trimSpace input)
  match weeklyMatch inp with
  | some name => .ok ("weekly:".data ++ name)
  | none =>
  match nthWeekdayMatch inp with
  | some ds =>
    if nthValue inp ds < 1 ∨ 5 < nthValue inp ds then .error .invalidPattern
    else .ok ("monthly-nth-weekday:".data ++ intDec (nthValue inp ds))
  | none =>
  if lastWeekendMatch inp then .ok "monthly-last-weekend".data else
  match monthlyMatch inp with
  | some ds =>
    if digitsVal ds < 1 ∨ 31 < digitsVal ds then .error .invalidDay
    else .ok ("monthly:".data ++ intDec (digitsVal ds))
  | none => .error .invalidPattern

/-- ASCII letter (what `strings.Title` treats as word-internal here). -/
def isLetterC (c : Char) : Bool :=
  ('a' ≤ c && c ≤ 'z') || ('A' ≤ c && c ≤ 'Z')

/-- Helper for `strings.Title`: uppercase each letter that does not follow
a letter. -/
def titleAux : Bool → Str → Str
  | _, [] => []
  | prev, c :: rest =>
    (if prev then c else c.toUpper) :: titleAux (isLetterC c) rest

/-- Go `strings.Title` on the ASCII day names the renderer feeds it. -/
def titleGo (l : Str) : Str := titleAux false l

/-- Go `getOrdinal`. -/
def getOrdinal (num : Str) : Str :=
  if num = "1".data then "1st".data
  else if num = "2".data then "2nd".data
  else if num = "3".data then "3rd".data
  else if num = "4".data then "4th".data
  else if num = "5".data then "5th".data
  else num ++ "th".data

/-- Go `Pattern.String` (the renderer). -/
def patternString (p : Pattern) : Str :=
  if p = [] then "none".data
  else if p = "monthly-last-weekend".data then "Last weekend of each month".data
  else
    match splitColon p with
    | [t, v] =>
      if t = "weekly".data then "Every ".data ++ titleGo v
      else if t = "monthly".data then "Day ".data ++ v ++ " of each month".data
      else if t = "monthly-nth-weekday".data then
        getOrdinal v ++ " weekday of each month".data
      else p
    | _ => p

/-- Go `Pattern.IsRecurring`. -/
def isRecurring (p : Pattern) : Bool := p ≠ []

/-- Go `parseWeekday`: day name to Go weekday number, `-1` if unknown. -/
def parseWeekday (dayName : Str) : Int :=
  let l := toLowerGo dayName
  if l = "sunday".data then 0
  else if l = "monday".data then 1
  else if l = "tuesday".data then 2
  else if l = "wednesday".data then 3
  else if l = "thursday".data then 4
  else if l = "friday".data then 5
  else if l = "saturday".data then 6
  else -1

/-! ## Occurrence computation

Each `for` loop of the source becomes a fuelled recursion; `none` means the
loop did not reach its exit within the fuel.  The fuels are generous upper
bounds (termination with these fuels is proved below). -/

/-- The day-advancing loop of `nextWeeklyOccurrence`:
`for current.Weekday() != targetWeekday { current = current.AddDate(0,0,1) }`. -/
def weeklyScan : Nat → GoTime → Int → Option GoTime
  | 0, _, _ => none
  | fuel + 1, cur, target =>
    if wdOf cur ≠ target then weeklyScan fuel (addDate cur 0 0 1) target
    else some cur

/-- Go `nextWeeklyOccurrence`. -/
def nextWeeklyOccurrence (after : GoTime) (dayName : Str) :
    Option (Except RecError GoTime) :=
  let target := parseWeekday dayName
  if target = -1 then some (.error .invalidPattern)
  else
    match weeklyScan 10 (addDate after 0 0 1) target with
    | none => none
    | some cur => some (.ok (goDate cur.year cur.month cur.day 0))

/-- The clamping loop of `nextMonthlyOccurrence`:
`for current.Day() != dayNum { current = Date(Y, M, 1).AddDate(0,0,-1) }`. -/
def clampLoop : Nat → GoTime → Int → Option GoTime
  | 0, _, _ => none
  | fuel + 1, cur, dayNum =>
    if cur.day ≠ dayNum then
      clampLoop fuel (addDate (goDate cur.year cur.month 1 0) 0 0 (-1)) dayNum
    else some cur

/-- Go `nextMonthlyOccurrence`. -/
def nextMonthlyOccurrence (after : GoTime) (dayNum : Int) :
    Option (Except RecError GoTime) :=
  if dayNum < 1 ∨ dayNum > 31 then some (.error .invalidDay)
  else
    let c0 := goDate after.year after.month dayNum 0
    let c1 := if ¬ goAfter c0 after then addDate c0 0 1 0 else c0
    (clampLoop 200 c1 dayNum).map .ok

/-- The first loop of `nextNthWeekdayOccurrence` (scan of the reference
month, guarded by `current.Month() == month`).  `some (some t)` models the
in-loop `return`, `some none` the `break` / month exit that falls through
to the next-month scan. -/
def nthLoop1 (month n : Int) (after : GoTime) :
    Nat → GoTime → Int → Option (Option GoTime)
  | 0, _, _ => none
  | fuel + 1, cur, cnt =>
    if cur.month = month then
      if isWeekdayB (wdOf cur) then
        if cnt + 1 = n then
          if goAfter cur after then some (some cur) else some none
        else nthLoop1 month n after fuel (addDate cur 0 0 1) (cnt + 1)
      else nthLoop1 month n after fuel (addDate cur 0 0 1) cnt
    else some none

/-- The second, unguarded loop of `nextNthWeekdayOccurrence` (`for { ... }`
over the following month). -/
def nthLoop2 (n : Int) : Nat → GoTime → Int → Option GoTime
  | 0, _, _ => none
  | fuel + 1, cur, cnt =>
    if isWeekdayB (wdOf cur) then
      if cnt + 1 = n then some cur
      else nthLoop2 n fuel (addDate cur 0 0 1) (cnt + 1)
    else nthLoop2 n fuel (addDate cur 0 0 1) cnt

/-- Go `nextNthWeekdayOccurrence`. -/
def nextNthWeekdayOccurrence (after : GoTime) (n : Int) :
    Option (Except RecError GoTime) :=
  if n < 1 ∨ n > 5 then some (.error .invalidPattern)
  else
    let y := after.year
    let m := after.month
    match nthLoop1 m n after 40 (goDate y m 1 0) 0 with
    | none => none
    | some (some t) => some (.ok t)
    | some none =>
      (nthLoop2 n 20 (addDate (goDate y m 1 0) 0 1 0) 0).map .ok

/-- The backward scan of `nextLastWeekendOccurrence`:
`for !isWeekend(current.Weekday()) { current = current.AddDate(0,0,-1) }`. -/
def backScan : Nat → GoTime → Option GoTime
  | 0, _ => none
  | fuel + 1, cur =>
    if ¬ isWeekendB (wdOf cur) then backScan fuel (addDate cur 0 0 (-1))
    else some cur

/-- Go `nextLastWeekendOccurrence`. -/
def nextLastWeekendOccurrence (after : GoTime) :
    Option (Except RecError GoTime) :=
  let y := after.year
  let m := after.month
  let lastOfMonth := addDate (addDate (goDate y m 1 0) 0 1 0) 0 0 (-1)
  match backScan 10 lastOfMonth with
  | none => none
  | some cur =>
    if goAfter cur after then some (.ok cur)
    else
      let m2 := m + 1
      let y2 := if m2 > 12 then y + 1 else y
      let m3 := if m2 > 12 then 1 else m2
      let lastOfMonth2 := addDate (addDate (goDate y2 m3 1 0) 0 1 0) 0 0 (-1)
      (backScan 10 lastOfMonth2).map .ok

/-- Go `Pattern.NextOccurrence` (final version): dispatch on the encoded
pattern string. -/
def nextOccurrence (p : Pattern) (after : GoTime) :
    Option (Except RecError GoTime) :=
  if p = [] then some (.error .invalidPattern)
  else if p = "monthly-last-weekend".data then nextLastWeekendOccurrence after
  else
    match splitColon p with
    | [ptype, pval] =>
      if ptype = "weekly".data then nextWeeklyOccurrence after pval
      else if ptype = "monthly".data then
        match atoiGo pval with
        | none => some (.error .invalidPattern)
        | some dayNum => nextMonthlyOccurrence after dayNum
      else if ptype = "monthly-nth-weekday".data then
        match atoiGo pval with
        | none => some (.error .invalidPattern)
        | some n => nextNthWeekdayOccurrence after n
      else some (.error .invalidPattern)
    | _ => some (.error .invalidPattern)

/-! ## Normalization lemmas

Characterizations of `goDate`/`addDate` at the shapes the engine uses:
a day already in range, a day one past the month end, day zero, and a
month step from a valid date.  These show the chosen fuel never runs out
at those call sites. -/

theorem daysIn_bounds (y m : Int) : 28 ≤ daysIn y m ∧ daysIn y m ≤ 31 := by
  unfold daysIn
  split
  · split <;> omega
  · split <;> omega

theorem nextYM_range (y m : Int) (h1 : 1 ≤ m) (h2 : m ≤ 12) :
    1 ≤ (nextYM y m).2 ∧ (nextYM y m).2 ≤ 12 := by
  unfold nextYM
  split
  · exact ⟨by norm_num, by norm_num⟩
  · exact ⟨by omega, by omega⟩

theorem prevYM_range (y m : Int) (h1 : 1 ≤ m) (h2 : m ≤ 12) :
    1 ≤ (prevYM y m).2 ∧ (prevYM y m).2 ≤ 12 := by
  unfold prevYM
  split
  · exact ⟨by norm_num, by norm_num⟩
  · exact ⟨by omega, by omega⟩

theorem nextYM_prevYM (y m : Int) (h1 : 1 ≤ m) (h2 : m ≤ 12) :
    nextYM (prevYM y m).1 (prevYM y m).2 = (y, m) := by
  by_cases h : m = 1
  · subst h
    show nextYM (y - 1) 12 = (y, 1)
    unfold nextYM
    rw [if_pos rfl, Prod.mk.injEq]
    exact ⟨by omega, rfl⟩
  · have hp : prevYM y m = (y, m - 1) := by unfold prevYM; rw [if_neg h]
    rw [hp]
    show nextYM y (m - 1) = (y, m)
    unfold nextYM
    rw [if_neg (by omega), Prod.mk.injEq]
    exact ⟨rfl, by omega⟩

/-- One unfolding step of the day normalization. -/
theorem dayFix_step (fuel : Nat) (y m d : Int) :
    dayFix (fuel + 1) y m d =
      if d < 1 then
        dayFix fuel (prevYM y m).1 (prevYM y m).2
          (d + daysIn (prevYM y m).1 (prevYM y m).2)
      else if daysIn y m < d then
        dayFix fuel (nextYM y m).1 (nextYM y m).2 (d - daysIn y m)
      else (y, m, d) := rfl

theorem dayFix_id (fuel : Nat) (y m d : Int) (h1 : 1 ≤ d) (h2 : d ≤ daysIn y m) :
    dayFix (fuel + 1) y m d = (y, m, d) := by
  rw [dayFix_step, if_neg (by omega), if_neg (by omega)]

theorem normYMD_id (y m d : Int) (hm1 : 1 ≤ m) (hm2 : m ≤ 12)
    (h1 : 1 ≤ d) (h2 : d ≤ daysIn y m) : normYMD y m d = (y, m, d) := by
  unfold normYMD
  have e1 : y + (m - 1) / 12 = y := by omega
  have e2 : (m - 1) % 12 + 1 = m := by omega
  rw [e1, e2]
  exact dayFix_id 39 y m d h1 h2

theorem normYMD_spill (y m d : Int) (hm1 : 1 ≤ m) (hm2 : m ≤ 12)
    (h1 : daysIn y m < d) (h2 : d - daysIn y m ≤ 28) :
    normYMD y m d = ((nextYM y m).1, (nextYM y m).2, d - daysIn y m) := by
  have hb := daysIn_bounds y m
  have hb2 := daysIn_bounds (nextYM y m).1 (nextYM y m).2
  unfold normYMD
  have e1 : y + (m - 1) / 12 = y := by omega
  have e2 : (m - 1) % 12 + 1 = m := by omega
  rw [e1, e2]
  show dayFix (39 + 1) y m d = _
  rw [dayFix_step, if_neg (by omega), if_pos (by omega)]
  exact dayFix_id 38 _ _ _ (by omega) (by omega)

theorem normYMD_zero (y m : Int) (hm1 : 1 ≤ m) (hm2 : m ≤ 12) :
    normYMD y m 0 =
      ((prevYM y m).1, (prevYM y m).2, daysIn (prevYM y m).1 (prevYM y m).2) := by
  have hb := daysIn_bounds (prevYM y m).1 (prevYM y m).2
  unfold normYMD
  have e1 : y + (m - 1) / 12 = y := by omega
  have e2 : (m - 1) % 12 + 1 = m := by omega
  rw [e1, e2]
  show dayFix (39 + 1) y m 0 = _
  rw [dayFix_step, if_pos (by omega)]
  have e3 : (0 : Int) + daysIn (prevYM y m).1 (prevYM y m).2
      = daysIn (prevYM y m).1 (prevYM y m).2 := by ring
  rw [e3]
  exact dayFix_id 38 _ _ _ (by omega) (by omega)

theorem goDate_of_normYMD (y m d : Int) (tod : Nat) (r : Int × Int × Int)
    (h : normYMD y m d = r) : goDate y m d tod = ⟨r.1, r.2.1, r.2.2, tod⟩ := by
  unfold goDate
  rw [h]

theorem goDate_id (y m d : Int) (tod : Nat) (hm1 : 1 ≤ m) (hm2 : m ≤ 12)
    (h1 : 1 ≤ d) (h2 : d ≤ daysIn y m) : goDate y m d tod = ⟨y, m, d, tod⟩ :=
  goDate_of_normYMD y m d tod _ (normYMD_id y m d hm1 hm2 h1 h2)

theorem goDate_spill (y m d : Int) (tod : Nat) (hm1 : 1 ≤ m) (hm2 : m ≤ 12)
    (h1 : daysIn y m < d) (h2 : d - daysIn y m ≤ 28) :
    goDate y m d tod =
      ⟨(nextYM y m).1, (nextYM y m).2, d - daysIn y m, tod⟩ :=
  goDate_of_normYMD y m d tod _ (normYMD_spill y m d hm1 hm2 h1 h2)

theorem goDate_zero (y m : Int) (tod : Nat) (hm1 : 1 ≤ m) (hm2 : m ≤ 12) :
    goDate y m 0 tod =
      ⟨(prevYM y m).1, (prevYM y m).2,
        daysIn (prevYM y m).1 (prevYM y m).2, tod⟩ :=
  goDate_of_normYMD y m 0 tod _ (normYMD_zero y m hm1 hm2)

/-- Adding one month folds into `nextYM` before the day is fixed. -/
theorem goDate_month_shift (y m d : Int) (tod : Nat)
    (hm1 : 1 ≤ m) (hm2 : m ≤ 12) :
    goDate y (m + 1) d tod = goDate (nextYM y m).1 (nextYM y m).2 d tod := by
  by_cases h : m = 12
  · subst h
    show goDate y 13 d tod = goDate (y + 1) 1 d tod
    unfold goDate normYMD
    norm_num
  · have hn : nextYM y m = (y, m + 1) := by unfold nextYM; rw [if_neg h]
    rw [hn]

/-- `AddDate(0, 0, 1)` on a valid date: next day, possibly rolling the
month. -/
theorem succ_eq (t : GoTime) (hv : validT t) :
    addDate t 0 0 1 =
      if t.day + 1 ≤ daysIn t.year t.month then
        ⟨t.year, t.month, t.day + 1, t.tod⟩
      else ⟨(nextYM t.year t.month).1, (nextYM t.year t.month).2, 1, t.tod⟩ := by
  obtain ⟨h1, h2, h3, h4⟩ := hv
  have hb := daysIn_bounds t.year t.month
  unfold addDate
  rw [show t.year + 0 = t.year by ring, show t.month + 0 = t.month by ring]
  split
  · exact goDate_id _ _ _ _ h1 h2 (by omega) (by omega)
  · rw [goDate_spill _ _ _ _ h1 h2 (by omega) (by omega)]
    congr 1
    omega

/-- `AddDate(0, 0, -1)` on a valid date: previous day, possibly rolling the
month back. -/
theorem pred_eq (t : GoTime) (hv : validT t) :
    addDate t 0 0 (-1) =
      if 2 ≤ t.day then ⟨t.year, t.month, t.day - 1, t.tod⟩
      else ⟨(prevYM t.year t.month).1, (prevYM t.year t.month).2,
        daysIn (prevYM t.year t.month).1 (prevYM t.year t.month).2, t.tod⟩ := by
  obtain ⟨h1, h2, h3, h4⟩ := hv
  unfold addDate
  rw [show t.year + 0 = t.year by ring, show t.month + 0 = t.month by ring]
  split
  · rw [show t.day + -1 = t.day - 1 by ring]
    exact goDate_id _ _ _ _ h1 h2 (by omega) (by omega)
  · rw [show t.day + -1 = (0 : Int) by omega]
    exact goDate_zero _ _ _ h1 h2

/-- `AddDate(0, 1, 0)` on a valid date: same day of the next month,
spilling past a shorter month by at most three days. -/
theorem addMonth_eq (t : GoTime) (hv : validT t) :
    addDate t 0 1 0 =
      if t.day ≤ daysIn (nextYM t.year t.month).1 (nextYM t.year t.month).2 then
        ⟨(nextYM t.year t.month).1, (nextYM t.year t.month).2, t.day, t.tod⟩
      else
        ⟨(nextYM (nextYM t.year t.month).1 (nextYM t.year t.month).2).1,
         (nextYM (nextYM t.year t.month).1 (nextYM t.year t.month).2).2,
         t.day - daysIn (nextYM t.year t.month).1 (nextYM t.year t.month).2,
         t.tod⟩ := by
  obtain ⟨h1, h2, h3, h4⟩ := hv
  have hb := daysIn_bounds t.year t.month
  have hbn := daysIn_bounds (nextYM t.year t.month).1 (nextYM t.year t.month).2
  have hnr := nextYM_range t.year t.month h1 h2
  unfold addDate
  rw [show t.year + 0 = t.year by ring, show t.day + 0 = t.day by ring]
  rw [goDate_month_shift t.year t.month t.day t.tod h1 h2]
  split
  · exact goDate_id _ _ _ _ hnr.1 hnr.2 (by omega) (by omega)
  · exact goDate_spill _ _ _ _ hnr.1 hnr.2 (by omega) (by omega)

/-! ## Day-count and weekday lemmas

`dfc` counts days since 1970-01-01; on valid dates stepping one day
forward (or back) changes it by exactly one, which yields the weekday
cycling facts the scan loops rely on. -/

theorem isLeap_iff (y : Int) :
    isLeap y = true ↔ (y % 4 = 0 ∧ ¬ y % 100 = 0) ∨ y % 400 = 0 := by
  simp [isLeap]

theorem dfc_linear (y m d : Int) : dfc y m (d + 1) = dfc y m d + 1 := by
  unfold dfc
  ring

theorem dfc_feb_mar (y : Int) : dfc y 3 1 = dfc y 2 (daysIn y 2) + 1 := by
  by_cases hl : isLeap y = true
  · have ha := (isLeap_iff y).mp hl
    unfold dfc daysIn monthDoy gdays
    norm_num [hl]
    omega
  · have ha : ¬((y % 4 = 0 ∧ ¬ y % 100 = 0) ∨ y % 400 = 0) := fun h =>
      hl ((isLeap_iff y).mpr h)
    unfold dfc daysIn monthDoy gdays
    norm_num [hl]
    omega

theorem dfc_boundary (y m : Int) (hm1 : 1 ≤ m) (hm2 : m ≤ 12) :
    dfc (nextYM y m).1 (nextYM y m).2 1 = dfc y m (daysIn y m) + 1 := by
  interval_cases m
  · show dfc y 2 1 = dfc y 1 (daysIn y 1) + 1
    unfold dfc daysIn monthDoy gdays
    norm_num
    try omega
  · show dfc y 3 1 = dfc y 2 (daysIn y 2) + 1
    exact dfc_feb_mar y
  · show dfc y 4 1 = dfc y 3 (daysIn y 3) + 1
    unfold dfc daysIn monthDoy gdays
    norm_num
    try omega
  · show dfc y 5 1 = dfc y 4 (daysIn y 4) + 1
    unfold dfc daysIn monthDoy gdays
    norm_num
    try omega
  · show dfc y 6 1 = dfc y 5 (daysIn y 5) + 1
    unfold dfc daysIn monthDoy gdays
    norm_num
    try omega
  · show dfc y 7 1 = dfc y 6 (daysIn y 6) + 1
    unfold dfc daysIn monthDoy gdays
    norm_num
    try omega
  · show dfc y 8 1 = dfc y 7 (daysIn y 7) + 1
    unfold dfc daysIn monthDoy gdays
    norm_num
    try omega
  · show dfc y 9 1 = dfc y 8 (daysIn y 8) + 1
    unfold dfc daysIn monthDoy gdays
    norm_num
    try omega
  · show dfc y 10 1 = dfc y 9 (daysIn y 9) + 1
    unfold dfc daysIn monthDoy gdays
    norm_num
    try omega
  · show dfc y 11 1 = dfc y 10 (daysIn y 10) + 1
    unfold dfc daysIn monthDoy gdays
    norm_num
    try omega
  · show dfc y 12 1 = dfc y 11 (daysIn y 11) + 1
    unfold dfc daysIn monthDoy gdays
    norm_num
    try omega
  · show dfc (y + 1) 1 1 = dfc y 12 (daysIn y 12) + 1
    unfold dfc daysIn monthDoy gdays
    norm_num
    try omega

/-- Day count of an instant. -/
def dfcT (t : GoTime) : Int := dfc t.year t.month t.day

theorem dfc_succT (t : GoTime) (hv : validT t) :
    dfcT (addDate t 0 0 1) = dfcT t + 1 := by
  obtain ⟨h1, h2, h3, h4⟩ := hv
  rw [succ_eq t ⟨h1, h2, h3, h4⟩]
  unfold dfcT
  split
  · show dfc t.year t.month (t.day + 1) = _
    exact dfc_linear t.year t.month t.day
  · show dfc (nextYM t.year t.month).1 (nextYM t.year t.month).2 1 = _
    rw [dfc_boundary t.year t.month h1 h2]
    have : t.day = daysIn t.year t.month := by omega
    rw [this]

theorem valid_succT (t : GoTime) (hv : validT t) : validT (addDate t 0 0 1) := by
  obtain ⟨h1, h2, h3, h4⟩ := hv
  rw [succ_eq t ⟨h1, h2, h3, h4⟩]
  have hb := daysIn_bounds (nextYM t.year t.month).1 (nextYM t.year t.month).2
  have hr := nextYM_range t.year t.month h1 h2
  split
  · exact ⟨h1, h2, by dsimp only; omega, by dsimp only; omega⟩
  · exact ⟨hr.1, hr.2, by dsimp only; omega, by dsimp only; omega⟩

theorem tod_succT (t : GoTime) (hv : validT t) : (addDate t 0 0 1).tod = t.tod := by
  rw [succ_eq t hv]
  split
  · rfl
  · rfl

theorem dfc_predT (t : GoTime) (hv : validT t) :
    dfcT (addDate t 0 0 (-1)) = dfcT t - 1 := by
  obtain ⟨h1, h2, h3, h4⟩ := hv
  rw [pred_eq t ⟨h1, h2, h3, h4⟩]
  unfold dfcT
  split
  · show dfc t.year t.month (t.day - 1) = _
    have hstep := dfc_linear t.year t.month (t.day - 1)
    have e : t.day - 1 + 1 = t.day := by omega
    rw [e] at hstep
    omega
  · show dfc (prevYM t.year t.month).1 (prevYM t.year t.month).2
        (daysIn (prevYM t.year t.month).1 (prevYM t.year t.month).2) = _
    have hpr := prevYM_range t.year t.month h1 h2
    have hb := dfc_boundary (prevYM t.year t.month).1 (prevYM t.year t.month).2
      hpr.1 hpr.2
    rw [nextYM_prevYM t.year t.month h1 h2] at hb
    dsimp only at hb
    have hd : t.day = 1 := by omega
    rw [hd]
    omega

theorem valid_predT (t : GoTime) (hv : validT t) : validT (addDate t 0 0 (-1)) := by
  obtain ⟨h1, h2, h3, h4⟩ := hv
  rw [pred_eq t ⟨h1, h2, h3, h4⟩]
  have hb := daysIn_bounds (prevYM t.year t.month).1 (prevYM t.year t.month).2
  have hr := prevYM_range t.year t.month h1 h2
  split
  · exact ⟨h1, h2, by dsimp only; omega, by dsimp only; omega⟩
  · exact ⟨hr.1, hr.2, by dsimp only; omega, by dsimp only; omega⟩

theorem tod_predT (t : GoTime) (hv : validT t) :
    (addDate t 0 0 (-1)).tod = t.tod := by
  rw [pred_eq t hv]
  split
  · rfl
  · rfl

theorem wdOf_range (t : GoTime) : 0 ≤ wdOf t ∧ wdOf t < 7 := by
  unfold wdOf
  omega

theorem wd_succT (t : GoTime) (hv : validT t) :
    wdOf (addDate t 0 0 1) = (wdOf t + 1) % 7 := by
  have h := dfc_succT t hv
  unfold wdOf
  unfold dfcT at h
  rw [h]
  omega

theorem wd_predT (t : GoTime) (hv : validT t) :
    wdOf (addDate t 0 0 (-1)) = (wdOf t + 6) % 7 := by
  have h := dfc_predT t hv
  unfold wdOf
  unfold dfcT at h
  rw [h]
  omega

/-! ## Chronological order on instants -/

/-- Strict order on the date components (chronological order for
normalized dates). -/
def dateLt (a b : GoTime) : Prop :=
  a.year < b.year ∨ (a.year = b.year ∧
    (a.month < b.month ∨ (a.month = b.month ∧ a.day < b.day)))

theorem goAfter_iff (t u : GoTime) :
    goAfter t u = true ↔
      (u.year < t.year ∨ (u.year = t.year ∧
        (u.month < t.month ∨ (u.month = t.month ∧
          (u.day < t.day ∨ (u.day = t.day ∧ u.tod < t.tod)))))) := by
  simp [goAfter]

theorem goAfter_of_dateLt (t u : GoTime) (h : dateLt u t) : goAfter t u = true := by
  rw [goAfter_iff]
  unfold dateLt at h
  tauto

theorem dateLt_trans (a b c : GoTime) (h1 : dateLt a b) (h2 : dateLt b c) :
    dateLt a c := by
  unfold dateLt at h1 h2 ⊢
  rcases h1 with h | ⟨e, h⟩ <;> rcases h2 with g | ⟨f, g⟩
  · left; omega
  · left; omega
  · left; omega
  · right
    refine ⟨by omega, ?_⟩
    rcases h with h | ⟨e2, h⟩ <;> rcases g with g | ⟨f2, g⟩
    · left; omega
    · left; omega
    · left; omega
    · right; exact ⟨by omega, by omega⟩

theorem succ_dateLt (t : GoTime) (hv : validT t) : dateLt t (addDate t 0 0 1) := by
  obtain ⟨h1, h2, h3, h4⟩ := hv
  rw [succ_eq t ⟨h1, h2, h3, h4⟩]
  unfold dateLt
  split
  · right
    exact ⟨rfl, Or.inr ⟨rfl, by dsimp only; omega⟩⟩
  · show t.year < (nextYM t.year t.month).1 ∨ t.year = (nextYM t.year t.month).1 ∧ _
    unfold nextYM
    split
    · left
      dsimp only
      omega
    · right
      exact ⟨rfl, Or.inl (by dsimp only; omega)⟩

/-! ## The weekly scan -/

theorem parseWeekday_range (name : Str) :
    parseWeekday name = -1 ∨ (0 ≤ parseWeekday name ∧ parseWeekday name < 7) := by
  unfold parseWeekday
  dsimp only
  split_ifs <;> norm_num

/-- The weekday scan reaches the target weekday in `(target - wd) % 7`
steps: it terminates, lands on the target weekday, and moves forward in
time by less than a week. -/
theorem weeklyScan_spec (fuel : Nat) : ∀ (t : GoTime) (target : Int),
    validT t → 0 ≤ target → target < 7 →
    ((target - wdOf t) % 7).toNat < fuel →
    ∃ r, weeklyScan fuel t target = some r ∧ validT r ∧ wdOf r = target ∧
      dfcT r = dfcT t + (target - wdOf t) % 7 ∧ (r = t ∨ dateLt t r) := by
  induction fuel with
  | zero =>
    intro t target hv h0 h7 hk
    omega
  | succ fuel ih =>
    intro t target hv h0 h7 hk
    have hr := wdOf_range t
    by_cases hw : wdOf t = target
    · refine ⟨t, ?_, hv, hw, ?_, Or.inl rfl⟩
      · show (if wdOf t ≠ target then weeklyScan fuel (addDate t 0 0 1) target
          else some t) = some t
        rw [if_neg (not_not_intro hw)]
      · rw [hw]
        omega
    · have hsv := valid_succT t hv
      have hwd := wd_succT t hv
      have hdf := dfc_succT t hv
      have hlt := succ_dateLt t hv
      have hk' : ((target - wdOf (addDate t 0 0 1)) % 7).toNat < fuel := by
        rw [hwd]
        omega
      obtain ⟨r, e, vr, wr, dr, orr⟩ := ih (addDate t 0 0 1) target hsv h0 h7 hk'
      refine ⟨r, ?_, vr, wr, ?_, ?_⟩
      · show (if wdOf t ≠ target then weeklyScan fuel (addDate t 0 0 1) target
          else some t) = some r
        rw [if_pos hw]
        exact e
      · rw [dr, hdf, hwd]
        omega
      · right
        rcases orr with rfl | hlt2
        · exact hlt
        · exact dateLt_trans t _ r hlt hlt2

/-- `dateLt` only concerns the date components. -/
theorem dateLt_tod (a b : GoTime) (tod : Nat) (h : dateLt a b) :
    dateLt a ⟨b.year, b.month, b.day, tod⟩ := by
  unfold dateLt at h ⊢
  dsimp only
  exact h

/-- Specification of `nextWeeklyOccurrence` for every valid day name:
it succeeds, the result is a start-of-day instant strictly after the
reference, on the requested weekday, at most seven days ahead. -/
theorem nextWeekly_spec (after : GoTime) (name : Str) (hv : validT after)
    (hw : parseWeekday name ≠ -1) :
    ∃ r, nextWeeklyOccurrence after name = some (.ok r) ∧ validT r ∧
      goAfter r after = true ∧ wdOf r = parseWeekday name ∧ r.tod = 0 ∧
      dfcT r ≤ dfcT after + 7 := by
  have htr : 0 ≤ parseWeekday name ∧ parseWeekday name < 7 := by
    rcases parseWeekday_range name with h | h
    · exact absurd h hw
    · exact h
  have hv1 := valid_succT after hv
  have hd1 := dfc_succT after hv
  have hl1 := succ_dateLt after hv
  have hwr := wdOf_range (addDate after 0 0 1)
  have hk : ((parseWeekday name - wdOf (addDate after 0 0 1)) % 7).toNat < 10 := by
    omega
  obtain ⟨r, e, vr, wr, dr, orr⟩ :=
    weeklyScan_spec 10 (addDate after 0 0 1) (parseWeekday name) hv1 htr.1 htr.2 hk
  have hlt : dateLt after r := by
    rcases orr with rfl | h2
    · exact hl1
    · exact dateLt_trans after _ r hl1 h2
  refine ⟨⟨r.year, r.month, r.day, 0⟩, ?_, ?_, ?_, ?_, rfl, ?_⟩
  · unfold nextWeeklyOccurrence
    dsimp only
    rw [if_neg hw, e]
    dsimp only
    rw [goDate_id r.year r.month r.day 0 vr.1 vr.2.1 vr.2.2.1 vr.2.2.2]
  · exact ⟨vr.1, vr.2.1, vr.2.2.1, vr.2.2.2⟩
  · exact goAfter_of_dateLt _ _ (dateLt_tod after r 0 hlt)
  · exact wr
  · unfold dfcT at dr hd1 ⊢
    dsimp only
    omega

/-! ## Weekday-count automaton

The nth-weekday scans and the weekend back-scan only look at the weekday of
the running date, which cycles with period 7.  A pure automaton over the
weekday captures each loop's exit behavior; a finite check over the 7
starting weekdays (and 5 ordinals) plus a step-by-step simulation gives
termination for every date. -/

/-- Exit check for a forward scan that counts weekdays: does the count
reach `q` more weekdays within `fuel` days, starting on weekday `w`? -/
def scanOk : Nat → Int → Int → Bool
  | 0, _, _ => false
  | fuel + 1, w, q =>
    if isWeekdayB w then
      (if q = 1 then true else scanOk fuel ((w + 1) % 7) (q - 1))
    else scanOk fuel ((w + 1) % 7) q

theorem scanOk_step (fuel : Nat) (w q : Int) :
    scanOk (fuel + 1) w q =
      if isWeekdayB w then
        (if q = 1 then true else scanOk fuel ((w + 1) % 7) (q - 1))
      else scanOk fuel ((w + 1) % 7) q := rfl

theorem scanOk_fin : ∀ (w : Fin 7) (q : Fin 5),
    scanOk 20 (w.1 : Int) ((q.1 : Int) + 1) = true := by decide

theorem scanOk_range (w q : Int) (hw0 : 0 ≤ w) (hw7 : w < 7)
    (hq1 : 1 ≤ q) (hq5 : q ≤ 5) : scanOk 20 w q = true := by
  have h := scanOk_fin ⟨w.toNat, by omega⟩ ⟨(q - 1).toNat, by omega⟩
  have e1 : ((w.toNat : Nat) : Int) = w := by omega
  have e2 : (((q - 1).toNat : Nat) : Int) + 1 = q := by omega
  rw [e1, e2] at h
  exact h

/-- Exit check for the backward weekend scan. -/
def backOk : Nat → Int → Bool
  | 0, _ => false
  | fuel + 1, w => if ¬ isWeekendB w then backOk fuel ((w + 6) % 7) else true

theorem backOk_step (fuel : Nat) (w : Int) :
    backOk (fuel + 1) w =
      if ¬ isWeekendB w then backOk fuel ((w + 6) % 7) else true := rfl

theorem backOk_fin : ∀ w : Fin 7, backOk 10 (w.1 : Int) = true := by decide

theorem backOk_range (w : Int) (hw0 : 0 ≤ w) (hw7 : w < 7) :
    backOk 10 w = true := by
  have h := backOk_fin ⟨w.toNat, by omega⟩
  have e1 : ((w.toNat : Nat) : Int) = w := by omega
  rw [e1] at h
  exact h

theorem nthLoop2_step (n : Int) (fuel : Nat) (cur : GoTime) (cnt : Int) :
    nthLoop2 n (fuel + 1) cur cnt =
      if isWeekdayB (wdOf cur) then
        (if cnt + 1 = n then some cur
         else nthLoop2 n fuel (addDate cur 0 0 1) (cnt + 1))
      else nthLoop2 n fuel (addDate cur 0 0 1) cnt := rfl

/-- The unguarded second loop of the nth-weekday computation exits whenever
the weekday automaton says so. -/
theorem nthLoop2_term (n : Int) (fuel : Nat) : ∀ (cur : GoTime) (cnt : Int),
    validT cur → scanOk fuel (wdOf cur) (n - cnt) = true →
    ∃ r, nthLoop2 n fuel cur cnt = some r := by
  induction fuel with
  | zero =>
    intro cur cnt hv h
    exact absurd h (by simp [scanOk])
  | succ fuel ih =>
    intro cur cnt hv h
    rw [scanOk_step] at h
    rw [nthLoop2_step]
    by_cases hw : isWeekdayB (wdOf cur) = true
    · rw [if_pos hw] at h ⊢
      by_cases he : cnt + 1 = n
      · rw [if_pos he]
        exact ⟨cur, rfl⟩
      · rw [if_neg he]
        rw [if_neg (by omega : ¬ n - cnt = 1)] at h
        have hw' := wd_succT cur hv
        have h2 : scanOk fuel (wdOf (addDate cur 0 0 1)) (n - (cnt + 1)) = true := by
          rw [hw']
          have e : n - (cnt + 1) = n - cnt - 1 := by ring
          rw [e]
          exact h
        exact ih (addDate cur 0 0 1) (cnt + 1) (valid_succT cur hv) h2
    · rw [if_neg hw] at h ⊢
      have hw' := wd_succT cur hv
      have h2 : scanOk fuel (wdOf (addDate cur 0 0 1)) (n - cnt) = true := by
        rw [hw']
        exact h
      exact ih (addDate cur 0 0 1) cnt (valid_succT cur hv) h2

theorem nthLoop1_step (month n : Int) (after : GoTime) (fuel : Nat)
    (cur : GoTime) (cnt : Int) :
    nthLoop1 month n after (fuel + 1) cur cnt =
      if cur.month = month then
        if isWeekdayB (wdOf cur) then
          if cnt + 1 = n then
            (if goAfter cur after then some (some cur) else some none)
          else nthLoop1 month n after fuel (addDate cur 0 0 1) (cnt + 1)
        else nthLoop1 month n after fuel (addDate cur 0 0 1) cnt
      else some none := rfl

/-- The guarded first loop of the nth-weekday computation exits whenever
the weekday automaton says so (leaving the month is also an exit). -/
theorem nthLoop1_term (month n : Int) (after : GoTime) (fuel : Nat) :
    ∀ (cur : GoTime) (cnt : Int),
    validT cur → scanOk fuel (wdOf cur) (n - cnt) = true →
    ∃ o, nthLoop1 month n after fuel cur cnt = some o := by
  induction fuel with
  | zero =>
    intro cur cnt hv h
    exact absurd h (by simp [scanOk])
  | succ fuel ih =>
    intro cur cnt hv h
    rw [scanOk_step] at h
    rw [nthLoop1_step]
    by_cases hm : cur.month = month
    · rw [if_pos hm]
      by_cases hw : isWeekdayB (wdOf cur) = true
      · rw [if_pos hw] at h ⊢
        by_cases he : cnt + 1 = n
        · rw [if_pos he]
          by_cases hg : goAfter cur after = true
          · rw [if_pos hg]
            exact ⟨some cur, rfl⟩
          · rw [if_neg hg]
            exact ⟨none, rfl⟩
        · rw [if_neg he]
          rw [if_neg (by omega : ¬ n - cnt = 1)] at h
          have hw' := wd_succT cur hv
          have h2 : scanOk fuel (wdOf (addDate cur 0 0 1)) (n - (cnt + 1)) = true := by
            rw [hw']
            have e : n - (cnt + 1) = n - cnt - 1 := by ring
            rw [e]
            exact h
          exact ih (addDate cur 0 0 1) (cnt + 1) (valid_succT cur hv) h2
      · rw [if_neg hw] at h ⊢
        have hw' := wd_succT cur hv
        have h2 : scanOk fuel (wdOf (addDate cur 0 0 1)) (n - cnt) = true := by
          rw [hw']
          exact h
        exact ih (addDate cur 0 0 1) cnt (valid_succT cur hv) h2
    · rw [if_neg hm]
      exact ⟨none, rfl⟩

theorem backScan_step (fuel : Nat) (cur : GoTime) :
    backScan (fuel + 1) cur =
      if ¬ isWeekendB (wdOf cur) then backScan fuel (addDate cur 0 0 (-1))
      else some cur := rfl

/-- The backward weekend scan exits whenever the weekday automaton says
so. -/
theorem backScan_term (fuel : Nat) : ∀ cur : GoTime,
    validT cur → backOk fuel (wdOf cur) = true →
    ∃ r, backScan fuel cur = some r := by
  induction fuel with
  | zero =>
    intro cur hv h
    exact absurd h (by simp [backOk])
  | succ fuel ih =>
    intro cur hv h
    rw [backOk_step] at h
    rw [backScan_step]
    by_cases hw : isWeekendB (wdOf cur) = true
    · rw [if_neg (not_not_intro hw)]
      exact ⟨cur, rfl⟩
    · rw [if_pos hw] at h ⊢
      have hw' := wd_predT cur hv
      have h2 : backOk fuel (wdOf (addDate cur 0 0 (-1))) = true := by
        rw [hw']
        exact h
      exact ih (addDate cur 0 0 (-1)) (valid_predT cur hv) h2

/-! ## Termination of the monthly clamping loop

The loop steps to the last day of the previous month until the day-of-month
equals the target.  Months are indexed linearly (`12*y + (m-1)`); the loop
visits decreasing indices.  For a target of 31 or 30 a suitable month lies
at most a year back; for 29 a leap February lies at most eight years back. -/

/-- Year of a linear month index. -/
def yOfIdx (i : Int) : Int := i / 12

/-- Month of a linear month index. -/
def mOfIdx (i : Int) : Int := i % 12 + 1

/-- Linear index of a month. -/
def idxOf (y m : Int) : Int := 12 * y + (m - 1)

theorem idxOf_inv (i : Int) : idxOf (yOfIdx i) (mOfIdx i) = i := by
  unfold idxOf yOfIdx mOfIdx
  omega

theorem mOfIdx_range (i : Int) : 1 ≤ mOfIdx i ∧ mOfIdx i ≤ 12 := by
  unfold mOfIdx
  omega

theorem prevYM_idx (y m : Int) (hm1 : 1 ≤ m) (hm2 : m ≤ 12) :
    prevYM y m = (yOfIdx (idxOf y m - 1), mOfIdx (idxOf y m - 1)) := by
  unfold prevYM yOfIdx mOfIdx idxOf
  split
  · rw [Prod.mk.injEq]
    constructor
    · omega
    · omega
  · rw [Prod.mk.injEq]
    constructor
    · omega
    · omega

theorem daysIn_31 (y m : Int)
    (h : m = 1 ∨ m = 3 ∨ m = 5 ∨ m = 7 ∨ m = 8 ∨ m = 10 ∨ m = 12) :
    daysIn y m = 31 := by
  unfold daysIn
  rw [if_neg (by omega), if_neg (by omega)]

theorem daysIn_30 (y m : Int) (h : m = 4 ∨ m = 6 ∨ m = 9 ∨ m = 11) :
    daysIn y m = 30 := by
  unfold daysIn
  rw [if_neg (by omega), if_pos (by omega)]

theorem daysIn_feb (y : Int) (h : isLeap y = true) : daysIn y 2 = 29 := by
  unfold daysIn
  rw [if_pos rfl, if_pos h]

/-- Within any eight consecutive years there is a leap year: the nearest
multiple of four going back is leap unless it is a non-400 century, in
which case the multiple of four before it is. -/
theorem leap_exists (y : Int) :
    ∃ j : Int, 0 ≤ j ∧ j < 8 ∧ isLeap (y - j) = true := by
  by_cases h : isLeap (y - y % 4) = true
  · exact ⟨y % 4, by omega, by omega, h⟩
  · refine ⟨y % 4 + 4, by omega, by omega, ?_⟩
    rw [isLeap_iff] at h ⊢
    omega

/-- Going back from any month, a month whose last day is the target
(29, 30 or 31) is reached within 150 steps. -/
theorem clamp_target_exists (y m dayNum : Int) (hm1 : 1 ≤ m) (hm2 : m ≤ 12)
    (hd : dayNum = 29 ∨ dayNum = 30 ∨ dayNum = 31) :
    ∃ k : Nat, 1 ≤ k ∧ k < 150 ∧
      daysIn (yOfIdx (idxOf y m - k)) (mOfIdx (idxOf y m - k)) = dayNum := by
  rcases hd with rfl | rfl | rfl
  · -- 29: reach the most recent leap February strictly before (y, m)
    obtain ⟨j, hj0, hj8, hjl⟩ := leap_exists (if 3 ≤ m then y else y - 1)
    by_cases h3 : 3 ≤ m
    · rw [if_pos h3] at hjl
      refine ⟨(12 * j + m - 2).toNat, by omega, by omega, ?_⟩
      have e1 : yOfIdx (idxOf y m - (12 * j + m - 2).toNat) = y - j := by
        unfold yOfIdx idxOf
        omega
      have e2 : mOfIdx (idxOf y m - (12 * j + m - 2).toNat) = 2 := by
        unfold mOfIdx idxOf
        omega
      rw [e1, e2]
      exact daysIn_feb (y - j) hjl
    · rw [if_neg h3] at hjl
      refine ⟨(12 * j + m + 10).toNat, by omega, by omega, ?_⟩
      have e1 : yOfIdx (idxOf y m - (12 * j + m + 10).toNat) = y - 1 - j := by
        unfold yOfIdx idxOf
        omega
      have e2 : mOfIdx (idxOf y m - (12 * j + m + 10).toNat) = 2 := by
        unfold mOfIdx idxOf
        omega
      rw [e1, e2]
      exact daysIn_feb (y - 1 - j) hjl
  · -- 30: Apr/Jun/Sep/Nov is at most 5 months back
    have key : ∃ k : Nat, 1 ≤ k ∧ k < 150 ∧
        (mOfIdx (idxOf y m - k) = 4 ∨ mOfIdx (idxOf y m - k) = 6 ∨
         mOfIdx (idxOf y m - k) = 9 ∨ mOfIdx (idxOf y m - k) = 11) := by
      interval_cases m
      · exact ⟨2, by omega, by omega, by unfold mOfIdx idxOf; omega⟩
      · exact ⟨3, by omega, by omega, by unfold mOfIdx idxOf; omega⟩
      · exact ⟨4, by omega, by omega, by unfold mOfIdx idxOf; omega⟩
      · exact ⟨5, by omega, by omega, by unfold mOfIdx idxOf; omega⟩
      · exact ⟨1, by omega, by omega, by unfold mOfIdx idxOf; omega⟩
      · exact ⟨2, by omega, by omega, by unfold mOfIdx idxOf; omega⟩
      · exact ⟨1, by omega, by omega, by unfold mOfIdx idxOf; omega⟩
      · exact ⟨2, by omega, by omega, by unfold mOfIdx idxOf; omega⟩
      · exact ⟨3, by omega, by omega, by unfold mOfIdx idxOf; omega⟩
      · exact ⟨1, by omega, by omega, by unfold mOfIdx idxOf; omega⟩
      · exact ⟨2, by omega, by omega, by unfold mOfIdx idxOf; omega⟩
      · exact ⟨1, by omega, by omega, by unfold mOfIdx idxOf; omega⟩
    obtain ⟨k, hk1, hk2, hk3⟩ := key
    exact ⟨k, hk1, hk2, daysIn_30 _ _ hk3⟩
  · -- 31: a 31-day month is at most 2 months back
    have key : ∃ k : Nat, 1 ≤ k ∧ k < 150 ∧
        (mOfIdx (idxOf y m - k) = 1 ∨ mOfIdx (idxOf y m - k) = 3 ∨
         mOfIdx (idxOf y m - k) = 5 ∨ mOfIdx (idxOf y m - k) = 7 ∨
         mOfIdx (idxOf y m - k) = 8 ∨ mOfIdx (idxOf y m - k) = 10 ∨
         mOfIdx (idxOf y m - k) = 12) := by
      interval_cases m
      · exact ⟨1, by omega, by omega, by unfold mOfIdx idxOf; omega⟩
      · exact ⟨1, by omega, by omega, by unfold mOfIdx idxOf; omega⟩
      · exact ⟨2, by omega, by omega, by unfold mOfIdx idxOf; omega⟩
      · exact ⟨1, by omega, by omega, by unfold mOfIdx idxOf; omega⟩
      · exact ⟨2, by omega, by omega, by unfold mOfIdx idxOf; omega⟩
      · exact ⟨1, by omega, by omega, by unfold mOfIdx idxOf; omega⟩
      · exact ⟨2, by omega, by omega, by unfold mOfIdx idxOf; omega⟩
      · exact ⟨1, by omega, by omega, by unfold mOfIdx idxOf; omega⟩
      · exact ⟨1, by omega, by omega, by unfold mOfIdx idxOf; omega⟩
      · exact ⟨2, by omega, by omega, by unfold mOfIdx idxOf; omega⟩
      · exact ⟨1, by omega, by omega, by unfold mOfIdx idxOf; omega⟩
      · exact ⟨2, by omega, by omega, by unfold mOfIdx idxOf; omega⟩
    obtain ⟨k, hk1, hk2, hk3⟩ := key
    exact ⟨k, hk1, hk2, daysIn_31 _ _ hk3⟩

theorem clampLoop_step (fuel : Nat) (cur : GoTime) (dayNum : Int) :
    clampLoop (fuel + 1) cur dayNum =
      if cur.day ≠ dayNum then
        clampLoop fuel (addDate (goDate cur.year cur.month 1 0) 0 0 (-1)) dayNum
      else some cur := rfl

/-- The clamping loop terminates as soon as some reachable month (or the
start state itself) matches the target day. -/
theorem clampLoop_term (dayNum : Int) (fuel : Nat) : ∀ cur : GoTime,
    validT cur →
    (∃ k : Nat, k < fuel ∧
      ((k = 0 ∧ cur.day = dayNum) ∨
       (1 ≤ k ∧ daysIn (yOfIdx (idxOf cur.year cur.month - k))
          (mOfIdx (idxOf cur.year cur.month - k)) = dayNum))) →
    ∃ r, clampLoop fuel cur dayNum = some r := by
  induction fuel with
  | zero =>
    intro cur hv h
    obtain ⟨k, hk, _⟩ := h
    omega
  | succ fuel ih =>
    intro cur hv h
    rw [clampLoop_step]
    by_cases hday : cur.day = dayNum
    · rw [if_neg (not_not_intro hday)]
      exact ⟨cur, rfl⟩
    · rw [if_pos hday]
      obtain ⟨h1, h2, h3, h4⟩ := hv
      -- the loop's next state: last day of the previous month
      have hg : goDate cur.year cur.month 1 0 = ⟨cur.year, cur.month, 1, 0⟩ :=
        goDate_id _ _ _ _ h1 h2 (by omega)
          (by have := daysIn_bounds cur.year cur.month; omega)
      rw [hg]
      have hpv : validT (⟨cur.year, cur.month, 1, 0⟩ : GoTime) :=
        ⟨h1, h2, by norm_num,
         by have := daysIn_bounds cur.year cur.month; dsimp only; omega⟩
      have hpe := pred_eq ⟨cur.year, cur.month, 1, 0⟩ hpv
      rw [if_neg (by dsimp only; omega)] at hpe
      dsimp only at hpe
      rw [hpe]
      have hpr := prevYM_range cur.year cur.month h1 h2
      have hbp := daysIn_bounds (prevYM cur.year cur.month).1
        (prevYM cur.year cur.month).2
      have hpidx := prevYM_idx cur.year cur.month h1 h2
      have hiy : (prevYM cur.year cur.month).1
          = yOfIdx (idxOf cur.year cur.month - 1) := by
        rw [hpidx]
      have him : (prevYM cur.year cur.month).2
          = mOfIdx (idxOf cur.year cur.month - 1) := by
        rw [hpidx]
      obtain ⟨k, hkf, hcase⟩ := h
      rcases hcase with ⟨hk0, hkd⟩ | ⟨hk1, hkd⟩
      · exact absurd hkd hday
      · -- the witness shifts by one step
        apply ih
        · exact ⟨hpr.1, hpr.2, by dsimp only; omega, by dsimp only; omega⟩
        · refine ⟨k - 1, by omega, ?_⟩
          by_cases hk1' : k = 1
          · left
            refine ⟨by omega, ?_⟩
            dsimp only
            rw [hiy, him]
            have e : idxOf cur.year cur.month - 1
                = idxOf cur.year cur.month - (k : Int) := by
              omega
            rw [e]
            exact hkd
          · right
            refine ⟨by omega, ?_⟩
            dsimp only
            rw [hiy, him, idxOf_inv]
            have e : idxOf cur.year cur.month - 1 - ((k - 1 : Nat) : Int)
                = idxOf cur.year cur.month - (k : Int) := by
              omega
            rw [e]
            exact hkd

/-! ## Termination of the calculators -/

theorem dateLt_next_month (t : GoTime) (hv : validT t) (d' : Int) (tod' : Nat) :
    dateLt t ⟨(nextYM t.year t.month).1, (nextYM t.year t.month).2, d', tod'⟩ := by
  obtain ⟨h1, h2, h3, h4⟩ := hv
  by_cases h : t.month = 12
  · have e : nextYM t.year t.month = (t.year + 1, 1) := by
      unfold nextYM
      rw [if_pos h]
    rw [e]
    unfold dateLt
    left
    dsimp only
    omega
  · have e : nextYM t.year t.month = (t.year, t.month + 1) := by
      unfold nextYM
      rw [if_neg h]
    rw [e]
    unfold dateLt
    right
    refine ⟨rfl, Or.inl ?_⟩
    dsimp only
    omega

theorem prevYM_nextYM (y m : Int) (h1 : 1 ≤ m) (h2 : m ≤ 12) :
    prevYM (nextYM y m).1 (nextYM y m).2 = (y, m) := by
  by_cases h : m = 12
  · subst h
    show prevYM (y + 1) 1 = (y, 12)
    unfold prevYM
    rw [if_pos rfl, Prod.mk.injEq]
    exact ⟨by omega, rfl⟩
  · have e : nextYM y m = (y, m + 1) := by
      unfold nextYM
      rw [if_neg h]
    rw [e]
    show prevYM y (m + 1) = (y, m)
    unfold prevYM
    rw [if_neg (by omega), Prod.mk.injEq]
    exact ⟨rfl, by omega⟩

/-- `nextMonthlyOccurrence` terminates for every valid reference and every
day number in `[1, 31]` (though, for 29–31, possibly on a date in the
past — see the clamping-bug theorems below). -/
theorem nextMonthly_term (after : GoTime) (dayNum : Int) (hv : validT after)
    (hd1 : 1 ≤ dayNum) (hd2 : dayNum ≤ 31) :
    ∃ r, nextMonthlyOccurrence after dayNum = some (.ok r) := by
  obtain ⟨h1, h2, h3, h4⟩ := hv
  have hb := daysIn_bounds after.year after.month
  have hnr := nextYM_range after.year after.month h1 h2
  have hbn := daysIn_bounds (nextYM after.year after.month).1
    (nextYM after.year after.month).2
  unfold nextMonthlyOccurrence
  rw [if_neg (by omega)]
  dsimp only
  by_cases hin : dayNum ≤ daysIn after.year after.month
  · rw [goDate_id _ _ _ _ h1 h2 hd1 hin]
    by_cases hg : goAfter ⟨after.year, after.month, dayNum, 0⟩ after = true
    · rw [if_neg (not_not_intro hg)]
      obtain ⟨r, hr⟩ := clampLoop_term dayNum 200 ⟨after.year, after.month, dayNum, 0⟩
        ⟨h1, h2, by dsimp only; omega, by dsimp only; omega⟩
        ⟨0, by omega, Or.inl ⟨rfl, rfl⟩⟩
      exact ⟨r, by rw [hr]; rfl⟩
    · rw [if_pos hg]
      have hvc : validT (⟨after.year, after.month, dayNum, 0⟩ : GoTime) :=
        ⟨h1, h2, by dsimp only; omega, by dsimp only; omega⟩
      rw [addMonth_eq _ hvc]
      dsimp only
      by_cases hin2 : dayNum ≤ daysIn (nextYM after.year after.month).1
          (nextYM after.year after.month).2
      · rw [if_pos hin2]
        obtain ⟨r, hr⟩ := clampLoop_term dayNum 200
          ⟨(nextYM after.year after.month).1, (nextYM after.year after.month).2,
            dayNum, 0⟩
          ⟨hnr.1, hnr.2, by dsimp only; omega, by dsimp only; omega⟩
          ⟨0, by omega, Or.inl ⟨rfl, rfl⟩⟩
        exact ⟨r, by rw [hr]; rfl⟩
      · rw [if_neg hin2]
        have hn2r := nextYM_range (nextYM after.year after.month).1
          (nextYM after.year after.month).2 hnr.1 hnr.2
        have hbn2 := daysIn_bounds
          (nextYM (nextYM after.year after.month).1 (nextYM after.year after.month).2).1
          (nextYM (nextYM after.year after.month).1 (nextYM after.year after.month).2).2
        obtain ⟨k, hk1, hk2, hk3⟩ := clamp_target_exists
          (nextYM (nextYM after.year after.month).1 (nextYM after.year after.month).2).1
          (nextYM (nextYM after.year after.month).1 (nextYM after.year after.month).2).2
          dayNum hn2r.1 hn2r.2 (by omega)
        obtain ⟨r, hr⟩ := clampLoop_term dayNum 200
          ⟨(nextYM (nextYM after.year after.month).1 (nextYM after.year after.month).2).1,
           (nextYM (nextYM after.year after.month).1 (nextYM after.year after.month).2).2,
           dayNum - daysIn (nextYM after.year after.month).1 (nextYM after.year after.month).2, 0⟩
          ⟨hn2r.1, hn2r.2, by dsimp only; omega, by dsimp only; omega⟩
          ⟨k, by omega, Or.inr ⟨hk1, by dsimp only; exact hk3⟩⟩
        exact ⟨r, by rw [hr]; rfl⟩
  · rw [goDate_spill _ _ _ _ h1 h2 (by omega) (by omega)]
    have hg : goAfter ⟨(nextYM after.year after.month).1,
        (nextYM after.year after.month).2,
        dayNum - daysIn after.year after.month, 0⟩ after = true :=
      goAfter_of_dateLt _ _ (dateLt_next_month after ⟨h1, h2, h3, h4⟩ _ _)
    rw [if_neg (not_not_intro hg)]
    obtain ⟨k, hk1, hk2, hk3⟩ := clamp_target_exists
        (nextYM after.year after.month).1 (nextYM after.year after.month).2
        dayNum hnr.1 hnr.2 (by omega)
    obtain ⟨r, hr⟩ := clampLoop_term dayNum 200
      ⟨(nextYM after.year after.month).1, (nextYM after.year after.month).2,
        dayNum - daysIn after.year after.month, 0⟩
      ⟨hnr.1, hnr.2, by dsimp only; omega, by dsimp only; omega⟩
      ⟨k, by omega, Or.inr ⟨hk1, by dsimp only; exact hk3⟩⟩
    exact ⟨r, by rw [hr]; rfl⟩

theorem scanOk_fin40 : ∀ (w : Fin 7) (q : Fin 5),
    scanOk 40 (w.1 : Int) ((q.1 : Int) + 1) = true := by decide

theorem scanOk_range40 (w q : Int) (hw0 : 0 ≤ w) (hw7 : w < 7)
    (hq1 : 1 ≤ q) (hq5 : q ≤ 5) : scanOk 40 w q = true := by
  have h := scanOk_fin40 ⟨w.toNat, by omega⟩ ⟨(q - 1).toNat, by omega⟩
  have e1 : ((w.toNat : Nat) : Int) = w := by omega
  have e2 : (((q - 1).toNat : Nat) : Int) + 1 = q := by omega
  rw [e1, e2] at h
  exact h

/-- `nextNthWeekdayOccurrence` terminates for every valid reference and
ordinal in `[1, 5]`. -/
theorem nextNth_term (after : GoTime) (n : Int) (hv : validT after)
    (hn1 : 1 ≤ n) (hn5 : n ≤ 5) :
    ∃ r, nextNthWeekdayOccurrence after n = some (.ok r) := by
  obtain ⟨h1, h2, h3, h4⟩ := hv
  have hb := daysIn_bounds after.year after.month
  have hnr := nextYM_range after.year after.month h1 h2
  have hbn := daysIn_bounds (nextYM after.year after.month).1
    (nextYM after.year after.month).2
  unfold nextNthWeekdayOccurrence
  rw [if_neg (by omega)]
  dsimp only
  rw [goDate_id _ _ _ _ h1 h2 (by norm_num) (by omega)]
  have hvc : validT (⟨after.year, after.month, 1, 0⟩ : GoTime) :=
    ⟨h1, h2, by norm_num, by dsimp only; omega⟩
  have hwr := wdOf_range (⟨after.year, after.month, 1, 0⟩ : GoTime)
  have hsc : scanOk 40 (wdOf ⟨after.year, after.month, 1, 0⟩) (n - 0) = true := by
    have e : n - 0 = n := by ring
    rw [e]
    exact scanOk_range40 _ _ hwr.1 hwr.2 hn1 hn5
  obtain ⟨o, ho⟩ := nthLoop1_term after.month n after 40
    ⟨after.year, after.month, 1, 0⟩ 0 hvc hsc
  rw [ho]
  cases o with
  | some t => exact ⟨t, rfl⟩
  | none =>
    have hadd := addMonth_eq ⟨after.year, after.month, 1, 0⟩ hvc
    rw [if_pos (by dsimp only; omega)] at hadd
    dsimp only at hadd
    rw [hadd]
    have hv2 : validT (⟨(nextYM after.year after.month).1,
        (nextYM after.year after.month).2, 1, 0⟩ : GoTime) :=
      ⟨hnr.1, hnr.2, by norm_num, by dsimp only; omega⟩
    have hwr2 := wdOf_range (⟨(nextYM after.year after.month).1,
        (nextYM after.year after.month).2, 1, 0⟩ : GoTime)
    have hsc2 : scanOk 20 (wdOf ⟨(nextYM after.year after.month).1,
        (nextYM after.year after.month).2, 1, 0⟩) (n - 0) = true := by
      have e : n - 0 = n := by ring
      rw [e]
      exact scanOk_range _ _ hwr2.1 hwr2.2 hn1 hn5
    obtain ⟨r, hr⟩ := nthLoop2_term n 20
      ⟨(nextYM after.year after.month).1, (nextYM after.year after.month).2, 1, 0⟩
      0 hv2 hsc2
    exact ⟨r, by rw [hr]; rfl⟩

theorem lastOfMonth_eq (y m : Int) (h1 : 1 ≤ m) (h2 : m ≤ 12) :
    addDate (addDate (goDate y m 1 0) 0 1 0) 0 0 (-1) = ⟨y, m, daysIn y m, 0⟩ := by
  have hb := daysIn_bounds y m
  have hnr := nextYM_range y m h1 h2
  have hbn := daysIn_bounds (nextYM y m).1 (nextYM y m).2
  rw [goDate_id y m 1 0 h1 h2 (by norm_num) (by omega)]
  have hvc : validT (⟨y, m, 1, 0⟩ : GoTime) :=
    ⟨h1, h2, by norm_num, by dsimp only; omega⟩
  rw [addMonth_eq _ hvc]
  rw [if_pos (by dsimp only; omega)]
  dsimp only
  have hv2 : validT (⟨(nextYM y m).1, (nextYM y m).2, 1, 0⟩ : GoTime) :=
    ⟨hnr.1, hnr.2, by norm_num, by dsimp only; omega⟩
  rw [pred_eq _ hv2]
  rw [if_neg (by dsimp only; omega)]
  dsimp only
  rw [prevYM_nextYM y m h1 h2]

/-- `nextLastWeekendOccurrence` terminates for every valid reference. -/
theorem nextLastWeekend_term (after : GoTime) (hv : validT after) :
    ∃ r, nextLastWeekendOccurrence after = some (.ok r) := by
  obtain ⟨h1, h2, h3, h4⟩ := hv
  have hb := daysIn_bounds after.year after.month
  unfold nextLastWeekendOccurrence
  dsimp only
  rw [lastOfMonth_eq after.year after.month h1 h2]
  have hvl : validT (⟨after.year, after.month, daysIn after.year after.month, 0⟩ : GoTime) :=
    ⟨h1, h2, by dsimp only; omega, by dsimp only; omega⟩
  have hwr := wdOf_range (⟨after.year, after.month,
    daysIn after.year after.month, 0⟩ : GoTime)
  obtain ⟨r1, hr1⟩ := backScan_term 10
    ⟨after.year, after.month, daysIn after.year after.month, 0⟩
    hvl (backOk_range _ hwr.1 hwr.2)
  rw [hr1]
  dsimp only
  by_cases hg : goAfter r1 after = true
  · rw [if_pos hg]
    exact ⟨r1, rfl⟩
  · rw [if_neg hg]
    -- the manual month increment agrees with `nextYM`
    by_cases hm : after.month + 1 > 12
    · rw [if_pos hm, if_pos hm]
      have hl2 := lastOfMonth_eq (after.year + 1) 1 (by norm_num) (by norm_num)
      rw [hl2]
      have hb2 := daysIn_bounds (after.year + 1) 1
      have hvl2 : validT (⟨after.year + 1, 1, daysIn (after.year + 1) 1, 0⟩ : GoTime) :=
        ⟨by norm_num, by norm_num, by dsimp only; omega, by dsimp only; omega⟩
      have hwr2 := wdOf_range (⟨after.year + 1, 1, daysIn (after.year + 1) 1, 0⟩ : GoTime)
      obtain ⟨r2, hr2⟩ := backScan_term 10
        ⟨after.year + 1, 1, daysIn (after.year + 1) 1, 0⟩
        hvl2 (backOk_range _ hwr2.1 hwr2.2)
      rw [hr2]
      exact ⟨r2, rfl⟩
    · rw [if_neg hm, if_neg hm]
      have hl2 := lastOfMonth_eq after.year (after.month + 1) (by omega) (by omega)
      rw [hl2]
      have hb2 := daysIn_bounds after.year (after.month + 1)
      have hvl2 : validT (⟨after.year, after.month + 1,
          daysIn after.year (after.month + 1), 0⟩ : GoTime) :=
        ⟨by dsimp only; omega, by dsimp only; omega,
         by dsimp only; omega, by dsimp only; omega⟩
      have hwr2 := wdOf_range (⟨after.year, after.month + 1,
        daysIn after.year (after.month + 1), 0⟩ : GoTime)
      obtain ⟨r2, hr2⟩ := backScan_term 10
        ⟨after.year, after.month + 1, daysIn after.year (after.month + 1), 0⟩
        hvl2 (backOk_range _ hwr2.1 hwr2.2)
      rw [hr2]
      exact ⟨r2, rfl⟩

/-! ## Shapes of parser-produced patterns -/

theorem weeklyMatch_mem (l name : Str) (h : weeklyMatch l = some name) :
    name ∈ dayNames := by
  unfold weeklyMatch at h
  cases h1 : stripLit ("every".data) l with
  | none => rw [h1] at h; cases h
  | some r1 =>
    rw [h1] at h
    dsimp only at h
    cases h2 : stripSpaces1 r1 with
    | none => rw [h2] at h; cases h
    | some r2 =>
      rw [h2] at h
      dsimp only at h
      by_cases h3 : dayNames.contains r2 = true
      · rw [if_pos h3] at h
        cases h
        exact List.elem_iff.mp h3
      · rw [if_neg h3] at h
        cases h

/-- Every pattern the parser produces, other than `none`, has one of the
four recurring shapes with its parameter in range. -/
theorem parse_shapes (input : Str) (p : Pattern)
    (hp : parsePattern input = .ok p) (hne : p ≠ []) :
    (∃ name, name ∈ dayNames ∧ p = "weekly:".data ++ name) ∨
    (∃ n : Int, 1 ≤ n ∧ n ≤ 5 ∧ p = "monthly-nth-weekday:".data ++ intDec n) ∨
    (p = "monthly-last-weekend".data) ∨
    (∃ n : Int, 1 ≤ n ∧ n ≤ 31 ∧ p = "monthly:".data ++ intDec n) := by
  unfold parsePattern at hp
  by_cases hi : input = []
  · rw [if_pos hi] at hp
    cases hp
    exact absurd rfl hne
  · rw [if_neg hi] at hp
    dsimp only at hp
    cases hweek : weeklyMatch (toLowerGo (trimSpace input)) with
    | some name =>
      rw [hweek] at hp
      cases hp
      exact Or.inl ⟨name, weeklyMatch_mem _ _ hweek, rfl⟩
    | none =>
      rw [hweek] at hp
      cases hnth : nthWeekdayMatch (toLowerGo (trimSpace input)) with
      | some ds =>
        rw [hnth] at hp
        dsimp only at hp
        by_cases hg : nthValue (toLowerGo (trimSpace input)) ds < 1 ∨
            5 < nthValue (toLowerGo (trimSpace input)) ds
        · rw [if_pos hg] at hp
          cases hp
        · rw [if_neg hg] at hp
          cases hp
          refine Or.inr (Or.inl ⟨_, by omega, by omega, rfl⟩)
      | none =>
        rw [hnth] at hp
        by_cases hlw : lastWeekendMatch (toLowerGo (trimSpace input)) = true
        · rw [if_pos hlw] at hp
          cases hp
          exact Or.inr (Or.inr (Or.inl rfl))
        · rw [if_neg hlw] at hp
          cases hmon : monthlyMatch (toLowerGo (trimSpace input)) with
          | some ds =>
            rw [hmon] at hp
            dsimp only at hp
            by_cases hg : digitsVal ds < 1 ∨ 31 < digitsVal ds
            · rw [if_pos hg] at hp
              cases hp
            · rw [if_neg hg] at hp
              cases hp
              refine Or.inr (Or.inr (Or.inr ⟨_, by omega, by omega, rfl⟩))
          | none =>
            rw [hmon] at hp
            cases hp

theorem splitColon_cons (c : Char) (rest : Str) :
    splitColon (c :: rest) =
      if c = ':' then [] :: splitColon rest
      else
        match splitColon rest with
        | h :: t => (c :: h) :: t
        | [] => [[c]] := rfl

/-- Splitting at the first colon of a colon-free prefix. -/
theorem splitColon_append (a b : Str) (ha : ':' ∉ a) :
    splitColon (a ++ ':' :: b) = a :: splitColon b := by
  induction a with
  | nil =>
    show splitColon (':' :: b) = [] :: splitColon b
    rw [splitColon_cons, if_pos rfl]
  | cons c cs ih =>
    have hc : ¬ (c = ':') := by
      intro h
      exact ha (by rw [h]; exact List.mem_cons_self ':' cs)
    show splitColon (c :: (cs ++ ':' :: b)) = (c :: cs) :: splitColon b
    rw [splitColon_cons, if_neg hc, ih (fun h => ha (List.mem_cons_of_mem c h))]

theorem splitColon_free (v : Str) (h : ':' ∉ v) : splitColon v = [v] := by
  induction v with
  | nil => rfl
  | cons c cs ih =>
    have hc : ¬ (c = ':') := by
      intro hcc
      exact h (by rw [hcc]; exact List.mem_cons_self ':' cs)
    show splitColon (c :: cs) = [c :: cs]
    rw [splitColon_cons, if_neg hc, ih (fun hm => h (List.mem_cons_of_mem c hm))]

theorem nextOccurrence_weekly_eq (v : Str) (after : GoTime) (hcf : ':' ∉ v) :
    nextOccurrence ("weekly:".data ++ v) after = nextWeeklyOccurrence after v := by
  unfold nextOccurrence
  rw [if_neg (by simp), if_neg (by simp)]
  rw [show ("weekly:".data ++ v) = ("weekly".data ++ ':' :: v) from rfl]
  rw [splitColon_append ("weekly".data) v (by decide), splitColon_free v hcf]
  dsimp only
  rw [if_pos rfl]

theorem nextOccurrence_monthly_eq (v : Str) (after : GoTime) (hcf : ':' ∉ v) :
    nextOccurrence ("monthly:".data ++ v) after =
      (match atoiGo v with
       | none => some (.error .invalidPattern)
       | some dayNum => nextMonthlyOccurrence after dayNum) := by
  unfold nextOccurrence
  rw [if_neg (by simp), if_neg (by simp)]
  rw [show ("monthly:".data ++ v) = ("monthly".data ++ ':' :: v) from rfl]
  rw [splitColon_append ("monthly".data) v (by decide), splitColon_free v hcf]
  dsimp only
  rw [if_neg (by decide), if_pos rfl]

theorem nextOccurrence_nth_eq (v : Str) (after : GoTime) (hcf : ':' ∉ v) :
    nextOccurrence ("monthly-nth-weekday:".data ++ v) after =
      (match atoiGo v with
       | none => some (.error .invalidPattern)
       | some n => nextNthWeekdayOccurrence after n) := by
  unfold nextOccurrence
  rw [if_neg (by simp), if_neg (by simp)]
  rw [show ("monthly-nth-weekday:".data ++ v)
      = ("monthly-nth-weekday".data ++ ':' :: v) from rfl]
  rw [splitColon_append ("monthly-nth-weekday".data) v (by decide),
    splitColon_free v hcf]
  dsimp only
  rw [if_neg (by decide), if_neg (by decide), if_pos rfl]

theorem nextOccurrence_mlw_eq (after : GoTime) :
    nextOccurrence ("monthly-last-weekend".data) after
      = nextLastWeekendOccurrence after := by
  unfold nextOccurrence
  rw [if_neg (by decide), if_pos rfl]

theorem atoi_intDec_31 (n : Int) (h1 : 1 ≤ n) (h2 : n ≤ 31) :
    atoiGo (intDec n) = some n ∧ ':' ∉ intDec n := by
  interval_cases n <;> exact ⟨by decide, by decide⟩

/-- Full termination: for every pattern the parser produces (other than
`none`) and every valid reference instant, the dispatcher and every loop
below it reach their exits, yielding a date. -/
theorem nextOccurrence_term (input : Str) (p : Pattern) (after : GoTime)
    (hv : validT after) (hp : parsePattern input = .ok p) (hne : p ≠ []) :
    ∃ r, nextOccurrence p after = some (.ok r) := by
  rcases parse_shapes input p hp hne with
    ⟨name, hmem, rfl⟩ | ⟨n, hn1, hn5, rfl⟩ | rfl | ⟨n, hn1, hn31, rfl⟩
  · have hpw : parseWeekday name ≠ -1 := by fin_cases hmem <;> decide
    have hcf : ':' ∉ name := by fin_cases hmem <;> decide
    rw [nextOccurrence_weekly_eq name after hcf]
    obtain ⟨r, hr, _, _, _, _⟩ := nextWeekly_spec after name hv hpw
    exact ⟨r, hr⟩
  · obtain ⟨hat, hcf⟩ := atoi_intDec_31 n hn1 (by omega)
    rw [nextOccurrence_nth_eq (intDec n) after hcf, hat]
    exact nextNth_term after n hv hn1 hn5
  · rw [nextOccurrence_mlw_eq after]
    exact nextLastWeekend_term after hv
  · obtain ⟨hat, hcf⟩ := atoi_intDec_31 n hn1 hn31
    rw [nextOccurrence_monthly_eq (intDec n) after hcf, hat]
    exact nextMonthly_term after n hv hn1 hn31

/-! ## Grammar alternatives are mutually exclusive on monthly-day inputs

An input accepted by the plain monthly-day expression cannot be accepted by
any of the three alternatives tried before it: its first character is `o`
or a digit (weekly needs `e`, last-weekend needs `l`), and after the digit
run and ordinal suffix its tail goes `of each|every month`, while the
nth-weekday tail needs `weekday` there. -/

theorem stripLit_cons (c : Char) (cs : Str) (x : Char) (xs : Str) :
    stripLit (c :: cs) (x :: xs) = if x = c then stripLit cs xs else none := rfl

theorem stripLit_cons_inv (c : Char) (cs l r : Str)
    (h : stripLit (c :: cs) l = some r) :
    ∃ xs, l = c :: xs ∧ stripLit cs xs = some r := by
  cases l with
  | nil => cases h
  | cons x xs =>
    rw [stripLit_cons] at h
    by_cases hx : x = c
    · subst hx
      rw [if_pos rfl] at h
      exact ⟨xs, rfl, h⟩
    · rw [if_neg hx] at h
      cases h

theorem takeWhile_head (p : Char → Bool) (l : Str) (h : l.takeWhile p ≠ []) :
    ∃ x xs, l = x :: xs ∧ p x = true := by
  cases l with
  | nil => exact absurd rfl h
  | cons x xs =>
    by_cases hp : p x = true
    · exact ⟨x, xs, rfl, hp⟩
    · exfalso
      apply h
      rw [List.takeWhile_cons, if_neg hp]

theorem monthlyMatch_inv (l ds : Str) (h : monthlyMatch l = some ds) :
    ds = (monthlyAfterOn l).takeWhile isDigitC ∧ ds ≠ [] ∧
      monthlyTail (monthlyOrd ((monthlyAfterOn l).dropWhile isDigitC)) = true := by
  unfold monthlyMatch at h
  dsimp only at h
  by_cases hg : ((monthlyAfterOn l).takeWhile isDigitC).length = 0 ∨
      3 ≤ ((monthlyAfterOn l).takeWhile isDigitC).length
  · rw [if_pos hg] at h
    cases h
  · rw [if_neg hg] at h
    by_cases ht : monthlyTail (monthlyOrd ((monthlyAfterOn l).dropWhile isDigitC)) = true
    · rw [if_pos ht] at h
      cases h
      refine ⟨rfl, ?_, ht⟩
      intro he
      rw [he] at hg
      exact hg (Or.inl rfl)
    · rw [if_neg ht] at h
      cases h

theorem monthlyMatch_head (l ds : Str) (h : monthlyMatch l = some ds) :
    ∃ x xs, l = x :: xs ∧ (x = 'o' ∨ isDigitC x = true) := by
  obtain ⟨hds, hne, _⟩ := monthlyMatch_inv l ds h
  cases hon : stripLit "on".data l with
  | some r =>
    obtain ⟨xs, hl, _⟩ := stripLit_cons_inv 'o' ("n".data) l r hon
    exact ⟨'o', xs, hl, Or.inl rfl⟩
  | none =>
    have hafter : monthlyAfterOn l = l := by
      unfold monthlyAfterOn
      rw [hon]
    rw [hafter] at hds
    have : l.takeWhile isDigitC ≠ [] := by rw [← hds]; exact hne
    obtain ⟨x, xs, hl, hx⟩ := takeWhile_head isDigitC l this
    exact ⟨x, xs, hl, Or.inr hx⟩

theorem weeklyMatch_ne_e (x : Char) (xs : Str) (h : ¬ x = 'e') :
    weeklyMatch (x :: xs) = none := by
  unfold weeklyMatch
  rw [show stripLit "every".data (x :: xs)
    = (if x = 'e' then stripLit ("very".data) xs else none) from rfl]
  rw [if_neg h]

theorem lastWeekendMatch_ne_l (x : Char) (xs : Str) (h : ¬ x = 'l') :
    lastWeekendMatch (x :: xs) = false := by
  unfold lastWeekendMatch
  rw [show stripLit "last".data (x :: xs)
    = (if x = 'l' then stripLit ("ast".data) xs else none) from rfl]
  rw [if_neg h]

theorem monthlyTail_inv (r : Str) (hr : r ≠ []) (h : monthlyTail r = true) :
    ∃ r1 r2, stripSpaces1 r = some r1 ∧ stripLit "of".data r1 = some r2 := by
  unfold monthlyTail at h
  rw [if_neg hr] at h
  cases hs : stripSpaces1 r with
  | none =>
    rw [hs] at h
    cases h
  | some r1 =>
    rw [hs] at h
    dsimp only at h
    cases ho : stripLit (['o', 'f'] : Str) r1 with
    | none =>
      rw [ho] at h
      cases h
    | some r2 => exact ⟨r1, r2, rfl, ho⟩

/-- A tail accepted by the plain-monthly optional suffix is rejected by the
nth-weekday tail: either it is empty (no `\s+`), or the word after the
space is `of`, not `weekday`. -/
theorem monthlyTail_nthTail (r : Str) (h : monthlyTail r = true) :
    nthTail r = false := by
  by_cases hr : r = []
  · subst hr
    rfl
  · obtain ⟨r1, r2, hs, ho⟩ := monthlyTail_inv r hr h
    obtain ⟨ys, hl, _⟩ := stripLit_cons_inv 'o' ("f".data) r1 r2 ho
    subst hl
    unfold nthTail
    rw [hs]
    rfl

theorem nthWeekdayMatch_digit (x : Char) (xs : Str) (hx : isDigitC x = true)
    (ht : monthlyTail (monthlyOrd ((x :: xs).dropWhile isDigitC)) = true) :
    nthWeekdayMatch (x :: xs) = none := by
  unfold nthWeekdayMatch
  dsimp only
  rw [if_pos hx]
  cases hso : stripOrd ((x :: xs).dropWhile isDigitC) with
  | none => rfl
  | some r =>
    have hmo : monthlyOrd ((x :: xs).dropWhile isDigitC) = r := by
      unfold monthlyOrd
      rw [hso]
    rw [hmo] at ht
    have hnt := monthlyTail_nthTail r ht
    dsimp only
    rw [if_neg (by rw [hnt]; exact Bool.false_ne_true)]

/-- If the plain monthly-day expression accepts an input, the three
alternatives tried before it all reject it. -/
theorem monthly_excludes (l ds : Str) (h : monthlyMatch l = some ds) :
    weeklyMatch l = none ∧ nthWeekdayMatch l = none ∧
      lastWeekendMatch l = false := by
  obtain ⟨hds, hne, htail⟩ := monthlyMatch_inv l ds h
  obtain ⟨x, xs, rfl, hx⟩ := monthlyMatch_head l ds h
  rcases hx with rfl | hx
  · exact ⟨rfl, rfl, rfl⟩
  · have hxo : ¬ (x = 'o') := by
      intro he
      subst he
      cases hx
    have hxe : ¬ (x = 'e') := by
      intro he
      subst he
      cases hx
    have hxl : ¬ (x = 'l') := by
      intro he
      subst he
      cases hx
    have hafter : monthlyAfterOn (x :: xs) = x :: xs := by
      unfold monthlyAfterOn
      rw [show stripLit "on".data (x :: xs)
        = (if x = 'o' then stripLit ("n".data) xs else none) from rfl]
      rw [if_neg hxo]
    rw [hafter] at htail
    exact ⟨weeklyMatch_ne_e x xs hxe, nthWeekdayMatch_digit x xs hx htail,
      lastWeekendMatch_ne_l x xs hxl⟩

/-- Whenever the plain monthly-day expression accepts the processed input
with an out-of-range day value, parsing fails with the dedicated
invalid-day error (the earlier alternatives cannot have matched). -/
theorem parse_invalidDay (input ds : Str)
    (hmon : monthlyMatch (toLowerGo (trimSpace input)) = some ds)
    (hout : digitsVal ds < 1 ∨ 31 < digitsVal ds) :
    parsePattern input = .error .invalidDay := by
  have hne : input ≠ [] := by
    intro he
    subst he
    cases hmon
  obtain ⟨hw, hn, hl⟩ := monthly_excludes _ _ hmon
  unfold parsePattern
  rw [if_neg hne]
  dsimp only
  rw [hw, hn, hmon]
  rw [if_neg (by rw [hl]; exact Bool.false_ne_true)]
  dsimp only
  rw [if_pos hout]

/-- Whenever no grammar alternative accepts the (non-empty) input, parsing
fails with the generic invalid-pattern error. -/
theorem parse_invalidPattern (input : Str) (hne : input ≠ [])
    (hw : weeklyMatch (toLowerGo (trimSpace input)) = none)
    (hn : nthWeekdayMatch (toLowerGo (trimSpace input)) = none)
    (hl : lastWeekendMatch (toLowerGo (trimSpace input)) = false)
    (hm : monthlyMatch (toLowerGo (trimSpace input)) = none) :
    parsePattern input = .error .invalidPattern := by
  unfold parsePattern
  rw [if_neg hne]
  dsimp only
  rw [hw, hn, hm]
  rw [if_neg (by rw [hl]; exact Bool.false_ne_true)]

theorem dropWhile_all (p : Char → Bool) (l : Str)
    (h : ∀ c ∈ l, p c = true) : l.dropWhile p = [] := by
  induction l with
  | nil => rfl
  | cons c cs ih =>
    rw [List.dropWhile_cons, if_pos (h c (List.mem_cons_self c cs))]
    exact ih (fun x hx => h x (List.mem_cons_of_mem c hx))

/-- A non-empty all-whitespace input trims to the empty string, and since
the emptiness check precedes trimming, parsing then fails with the generic
invalid-pattern error rather than mapping to the `none` pattern. -/
theorem parse_whitespace (input : Str) (hne : input ≠ [])
    (hsp : ∀ c ∈ input, goIsSpace c = true) :
    parsePattern input = .error .invalidPattern := by
  have htrim : trimSpace input = [] := by
    unfold trimSpace
    rw [dropWhile_all goIsSpace input hsp]
    rfl
  have hinp : toLowerGo (trimSpace input) = [] := by
    rw [htrim]
    rfl
  refine parse_invalidPattern input hne ?_ ?_ ?_ ?_
  · rw [hinp]
    rfl
  · rw [hinp]
    rfl
  · rw [hinp]
    rfl
  · rw [hinp]
    rfl

/-! ## Claim theorems -/

/-- C1: the claim `NextOccurrence(p, r)` is a start-of-day date strictly
after `r` for every recurring pattern FAILS on the code: for the
parser-produced pattern `monthly:31` and reference 2025-04-10, the clamping
loop walks back past April 30 (whose day is 30, not 31) and returns
2025-03-31 — a date before the reference.  The function's own documentation
("calculates the next occurrence date after the given date", "use the last
day of that month") shows the intent; the loop exit condition
`current.Day() != dayNum` contradicts it. -/
theorem c1_monthly31_before_reference :
    parsePattern ("31st".data) = .ok ("monthly:31".data) ∧
    nextOccurrence ("monthly:31".data) ⟨2025, 4, 10, 720⟩
      = some (.ok ⟨2025, 3, 31, 0⟩) ∧
    goAfter ⟨2025, 3, 31, 0⟩ ⟨2025, 4, 10, 720⟩ = false :=
  ⟨by decide, by decide, by decide⟩

/-- C2 counterexample: the round-trip claim fails already at the `none`
shape — the renderer prints `none`, which the parser rejects with the
generic invalid-pattern error, so `parse(render(p))` does not succeed for
each of the five shapes. -/
theorem c2_none_roundtrip_fails :
    patternString ([] : Pattern) = "none".data ∧
    parsePattern (patternString ([] : Pattern)) = .error .invalidPattern :=
  ⟨by decide, by decide⟩

/-- C2 amended: only the weekly shape round-trips through its own rendered
text (`parse(render(weekly d)) = weekly d`, hence
`render(parse(render(p))) = render(p)` there); for the other four shapes —
`none`, `monthly(n)` for every `n ∈ [1,31]`, `monthlyNthWeekday(n)` for
every `n ∈ [1,5]`, and `monthlyLastWeekend` — parsing the renderer's output
fails with the generic invalid-pattern error. -/
theorem c2_roundtrip_weekly_only :
    (∀ name ∈ dayNames,
        parsePattern (patternString ("weekly:".data ++ name))
          = .ok ("weekly:".data ++ name)) ∧
    parsePattern (patternString ([] : Pattern)) = .error .invalidPattern ∧
    (∀ n : Int, 1 ≤ n → n ≤ 31 →
        parsePattern (patternString ("monthly:".data ++ intDec n))
          = .error .invalidPattern) ∧
    (∀ n : Int, 1 ≤ n → n ≤ 5 →
        parsePattern (patternString ("monthly-nth-weekday:".data ++ intDec n))
          = .error .invalidPattern) ∧
    parsePattern (patternString ("monthly-last-weekend".data))
      = .error .invalidPattern := by
  refine ⟨?_, by decide, ?_, ?_, by decide⟩
  · intro name hmem
    fin_cases hmem <;> decide
  · intro n h1 h2
    interval_cases n <;> decide
  · intro n h1 h2
    interval_cases n <;> decide

theorem c2_roundtrip_weekly_only_witness :
    parsePattern (patternString ("weekly:".data ++ "monday".data))
      = .ok ("weekly:".data ++ "monday".data) ∧
    parsePattern (patternString ("monthly:".data ++ intDec 15))
      = .error .invalidPattern :=
  ⟨c2_roundtrip_weekly_only.1 ("monday".data) (by decide),
   c2_roundtrip_weekly_only.2.2.1 15 (by norm_num) (by norm_num)⟩

/-- C3: the claim that `monthly(31)` with a reference in April yields
April 30 FAILS on the code: from 2025-04-15 the computation returns
2025-03-31 (the clamping loop steps back past April 30 because 30 ≠ 31),
not April 30.  The in-code comment "use the last day of that month" states
the intended clamping the spec describes. -/
theorem c3_monthly31_april_clamp_bug :
    nextOccurrence ("monthly:31".data) ⟨2025, 4, 15, 0⟩
      = some (.ok ⟨2025, 3, 31, 0⟩) ∧
    ((⟨2025, 3, 31, 0⟩ : GoTime) ≠ ⟨2025, 4, 30, 0⟩) :=
  ⟨by decide, by decide⟩

/-- C4: an input accepted by the plain monthly day-of-month shape with a
day value outside `[1, 31]` parses to the dedicated invalid-day error
(the earlier grammar alternatives are proved unable to match such input),
while a non-empty input matching no alternative parses to the distinct
generic invalid-pattern error. -/
theorem c4_error_discrimination (input : Str) :
    (∀ ds, monthlyMatch (toLowerGo (trimSpace input)) = some ds →
      (digitsVal ds < 1 ∨ 31 < digitsVal ds) →
      parsePattern input = .error .invalidDay) ∧
    (input ≠ [] →
      weeklyMatch (toLowerGo (trimSpace input)) = none →
      nthWeekdayMatch (toLowerGo (trimSpace input)) = none →
      lastWeekendMatch (toLowerGo (trimSpace input)) = false →
      monthlyMatch (toLowerGo (trimSpace input)) = none →
      parsePattern input = .error .invalidPattern) :=
  ⟨fun ds hm ho => parse_invalidDay input ds hm ho, parse_invalidPattern input⟩

theorem c4_error_discrimination_witness :
    parsePattern ("32nd of each month".data) = .error .invalidDay ∧
    parsePattern ("whenever I feel like it".data) = .error .invalidPattern :=
  ⟨(c4_error_discrimination ("32nd of each month".data)).1
      (['3', '2']) (by decide) (by decide),
   (c4_error_discrimination ("whenever I feel like it".data)).2
      (by decide) (by decide) (by decide) (by decide) (by decide)⟩

/-- C5: for every valid reference instant and every weekday name of the
weekly family, `NextOccurrence` on the canonical `weekly:<day>` pattern
succeeds with a start-of-day date strictly after the reference, falling on
the requested weekday, at most seven days ahead. -/
theorem c5_weekly_next_occurrence (after : GoTime) (name : Str)
    (hv : validT after) (hmem : name ∈ dayNames) :
    ∃ r, nextOccurrence ("weekly:".data ++ name) after = some (.ok r) ∧
      goAfter r after = true ∧ wdOf r = parseWeekday name ∧ r.tod = 0 ∧
      dfcT r ≤ dfcT after + 7 := by
  have hcf : ':' ∉ name := by fin_cases hmem <;> decide
  have hpw : parseWeekday name ≠ -1 := by fin_cases hmem <;> decide
  rw [nextOccurrence_weekly_eq name after hcf]
  obtain ⟨r, h1, _, h3, h4, h5, h6⟩ := nextWeekly_spec after name hv hpw
  exact ⟨r, h1, h3, h4, h5, h6⟩

theorem c5_weekly_next_occurrence_witness :
    ∃ r, nextOccurrence ("weekly:".data ++ "monday".data) ⟨2025, 11, 9, 720⟩
        = some (.ok r) ∧
      goAfter r ⟨2025, 11, 9, 720⟩ = true ∧
      wdOf r = parseWeekday ("monday".data) ∧ r.tod = 0 ∧
      dfcT r ≤ dfcT ⟨2025, 11, 9, 720⟩ + 7 :=
  c5_weekly_next_occurrence ⟨2025, 11, 9, 720⟩ ("monday".data)
    (by decide) (by decide)

/-- C6: `monthlyNthWeekday(1)` from Saturday 2025-11-01 gives Monday
2025-11-03 (the month's first Monday–Friday day), and from 2025-11-05
(already past it) rolls to Monday 2025-12-01.  The weekday equations
record that Nov 1 is a Saturday (6) and the two results are Mondays (1). -/
theorem c6_first_weekday_of_month :
    nextOccurrence ("monthly-nth-weekday:1".data) ⟨2025, 11, 1, 0⟩
      = some (.ok ⟨2025, 11, 3, 0⟩) ∧
    nextOccurrence ("monthly-nth-weekday:1".data) ⟨2025, 11, 5, 0⟩
      = some (.ok ⟨2025, 12, 1, 0⟩) ∧
    wdOf ⟨2025, 11, 1, 0⟩ = 6 ∧ wdOf ⟨2025, 11, 3, 0⟩ = 1 ∧
    wdOf ⟨2025, 12, 1, 0⟩ = 1 :=
  ⟨by decide, by decide, by decide, by decide, by decide⟩

/-- C7: `monthlyLastWeekend` from 2025-02-01 gives Sunday 2025-02-23 (the
last weekend day of a 28-day February), and from 2025-11-15 gives Sunday
2025-11-30; both results are the chronologically last Saturday-or-Sunday
of their month. -/
theorem c7_last_weekend_of_month :
    nextOccurrence ("monthly-last-weekend".data) ⟨2025, 2, 1, 0⟩
      = some (.ok ⟨2025, 2, 23, 0⟩) ∧
    nextOccurrence ("monthly-last-weekend".data) ⟨2025, 11, 15, 0⟩
      = some (.ok ⟨2025, 11, 30, 0⟩) ∧
    wdOf ⟨2025, 2, 23, 0⟩ = 0 ∧ wdOf ⟨2025, 11, 30, 0⟩ = 0 ∧
    daysIn 2025 2 = 28 :=
  ⟨by decide, by decide, by decide, by decide, by decide⟩

/-- C8: requesting the next occurrence of the `none` (empty) pattern fails
with the invalid-pattern error for every reference instant; no date is
produced. -/
theorem c8_none_pattern_rejected (after : GoTime) :
    nextOccurrence ([] : Pattern) after = some (.error .invalidPattern) := rfl

/-- C9: `NextOccurrence` terminates for every recurring pattern the parser
produces and every valid reference instant: with the fuels fixed in this
embedding — which bound each loop's iterations — every internal
day-stepping loop (the weekly scan, the monthly clamp, the two nth-weekday
scans including the unguarded one, and the backward weekend scans) reaches
its exit and a date is returned. -/
theorem c9_next_occurrence_terminates (input : Str) (p : Pattern)
    (after : GoTime) (hv : validT after) (hp : parsePattern input = .ok p)
    (hne : p ≠ []) :
    ∃ r, nextOccurrence p after = some (.ok r) :=
  nextOccurrence_term input p after hv hp hne

theorem c9_next_occurrence_terminates_witness :
    ∃ r, nextOccurrence ("monthly:29".data) ⟨2025, 2, 10, 720⟩
      = some (.ok r) :=
  c9_next_occurrence_terminates ("29th".data) ("monthly:29".data)
    ⟨2025, 2, 10, 720⟩ (by decide) (by decide) (by decide)

/-- C10: every non-empty input consisting only of whitespace characters
parses to the generic invalid-pattern error, not to the `none` pattern:
the emptiness check precedes trimming, and the trimmed-empty input matches
no grammar alternative. -/
theorem c10_whitespace_not_none (input : Str) (hne : input ≠ [])
    (hsp : ∀ c ∈ input, goIsSpace c = true) :
    parsePattern input = .error .invalidPattern :=
  parse_whitespace input hne hsp

theorem c10_whitespace_not_none_witness :
    parsePattern ("   ".data) = .error .invalidPattern :=
  c10_whitespace_not_none ("   ".data) (by decide) (by decide)

end Facienda
